import Mathlib

/-!
Verification development for the PhiBlock-API compliance core.

Python strings that are manipulated character-by-character (texts, keywords,
entity values) are modelled as `List Char`; identifier-like strings (framework
names, rule ids, ledger timestamps) are modelled as `String`.  Python floats
are modelled as exact rationals (`ℚ`), which captures the arithmetic structure
of the scoring formulas.  Machine-level floating point rounding is not
modelled.
-/

/-- Python `str` used as raw character data. -/
abbrev Str := List Char

/-- Python `str.lower()` restricted to the simple per-character case mapping. -/
def pyLower (s : Str) : Str := s.map Char.toLower

/-- Python `str.upper()` on identifier-like strings. -/
def pyUpperS (s : String) : String := ⟨s.data.map Char.toUpper⟩

/-- Python `str.lower()` on identifier-like strings. -/
def pyLowerS (s : String) : String := ⟨s.data.map Char.toLower⟩

/-- Severity enumeration from `app/compliance/models.py` (`class Severity`). -/
inductive Severity where
  | CRITICAL
  | HIGH
  | MEDIUM
  | LOW
deriving DecidableEq

/-- Action enumeration from `app/compliance/models.py` (`class ComplianceAction`). -/
inductive ComplianceAction where
  | BLOCK
  | REDACT
  | FLAG
deriving DecidableEq

/-- The `ComplianceFramework` enum of `app/compliance/models.py`: member name
to member value.  Note the member `PCI_DSS` carries the value `"PCI-DSS"` and
`SECURITY` carries `"Security"`. -/
def frameworkMemberValue (name : String) : Option String :=
  if name = "HIPAA" then some "HIPAA"
  else if name = "GDPR" then some "GDPR"
  else if name = "PCI_DSS" then some "PCI-DSS"
  else if name = "SOC2" then some "SOC2"
  else if name = "CCPA" then some "CCPA"
  else if name = "PIPEDA" then some "PIPEDA"
  else if name = "SECURITY" then some "Security"
  else none

/-- Name lookup `Severity[token]` from `app/compliance/models.py`. -/
def severityByName (s : String) : Option Severity :=
  if s = "CRITICAL" then some .CRITICAL
  else if s = "HIGH" then some .HIGH
  else if s = "MEDIUM" then some .MEDIUM
  else if s = "LOW" then some .LOW
  else none

/-- Name lookup `ComplianceAction[token]` from `app/compliance/models.py`. -/
def actionByName (s : String) : Option ComplianceAction :=
  if s = "BLOCK" then some .BLOCK
  else if s = "REDACT" then some .REDACT
  else if s = "FLAG" then some .FLAG
  else none

/-- `ComplianceViolation` from `app/compliance/models.py`.  Free-text fields
are `Str`; identifier fields are `String`. -/
structure ComplianceViolation where
  rule_id : String
  framework : String
  rule_name : String
  severity : Severity
  message : Str
  remediation : String
  action : ComplianceAction
  matched_content : Option Str := none
  vstart : Option Int := none
  vend : Option Int := none
  entity_types : List Str := []
deriving DecidableEq

/-- `ComplianceRule` from `app/compliance/models.py`. -/
structure ComplianceRule where
  id : String
  framework : String
  name : String
  description : String
  severity : Severity
  entity_types : List Str := []
  keywords : List Str := []
  patterns : List String := []
  action : ComplianceAction := .FLAG
  remediation : String := ""
deriving DecidableEq

/-! ## Risk scorer (`app/compliance/risk_scoring.py`) -/

/-- `RiskScorer.SEVERITY_SCORES`; the dictionary is total on the `Severity`
enum, so the `.get(..., 50)` default of `score_compliance_violation` is
unreachable and the table is modelled as a total function. -/
def SEVERITY_SCORES : Severity → ℚ
  | .LOW => 20
  | .MEDIUM => 40
  | .HIGH => 70
  | .CRITICAL => 95

/-- `RiskScorer.FRAMEWORK_WEIGHTS` together with the `.get(framework, 1.0)`
lookup of `score_compliance_violation`.  The dictionary keys are the literal
strings `"HIPAA"`, `"PCI_DSS"` and `"GDPR"`. -/
def FRAMEWORK_WEIGHTS (framework : String) : ℚ :=
  if framework = "HIPAA" then 3/2
  else if framework = "PCI_DSS" then 7/5
  else if framework = "GDPR" then 13/10
  else 1

/-- Numeric part of `RiskScorer.score_compliance_violation`
(`app/compliance/risk_scoring.py` lines 170-196): severity base times
framework weight, capped at 100. -/
def score_compliance_violation (v : ComplianceViolation) : ℚ :=
  min 100 (SEVERITY_SCORES v.severity * FRAMEWORK_WEIGHTS v.framework)

/-- Numeric part of `RiskScorer.score_injection_threat`
(`app/compliance/risk_scoring.py` lines 134-168), translated branch by
branch: the `prompt_length > 500` test is performed before the
`prompt_length > 1000` test, exactly as in the source. -/
def score_injection_threat (injection_confidence : ℚ) (prompt_length : Nat) : ℚ :=
  let base_score := injection_confidence * 100
  let length_multiplier : ℚ :=
    if prompt_length > 500 then 12/10
    else if prompt_length > 1000 then 14/10
    else 1
  min 100 (base_score * length_multiplier)

/-- Injection component of `RiskScorer.assess_overall_risk`
(`app/compliance/risk_scoring.py` lines 231-239): the injection threat is
scored only when `injection_score > 0.1` (with `prompt_length=100`),
otherwise the component is `0.0`. -/
def assess_injection_component (injection_score : ℚ) : ℚ :=
  if injection_score > 1/10 then score_injection_threat injection_score 100 else 0

/-- Formalisation of the specification's injection sub-score sentence
(spec.md §4.4 / claim C3): `confidence × 100 ×` a multiplier of 1.0 below 500
characters, 1.2 for 500-1000, 1.4 above 1000, capped at 100.  Written from
the spec's words, for comparison with `score_injection_threat`. -/
def spec_injection_sub_score (c : ℚ) (L : Nat) : ℚ :=
  min 100 (c * 100 * (if L > 1000 then 14/10 else if 500 ≤ L then 12/10 else 1))

/-! ## Rule loader (`app/compliance/rules.py`) -/

/-- Raw rule definition as read from a YAML file: each field of the
dictionary may be absent (`Option`), list fields default to `[]`. -/
structure RuleData where
  framework : Option String := none
  id : Option String := none
  name : Option String := none
  severity : Option String := none
  action : Option String := none
  description : Option String := none
  remediation : Option String := none
  entity_types : List Str := []
  keywords : List Str := []
  patterns : List String := []
deriving DecidableEq

/-- `RuleLoader._parse_rule` (`app/compliance/rules.py` lines 93-158).
`ValueError` raises are modelled as `Except.error`.  The id default
`f"rule_\x7bhash(...)\x7d"` uses Python's nondeterministic `hash` and is
modelled as the fixed placeholder `"rule_auto"`; no claim depends on ids. -/
def parseRule (rule_data : RuleData) (default_framework : Option String) :
    Except String ComplianceRule :=
  let framework_str? := match rule_data.framework with
    | some s => some s
    | none => default_framework
  match framework_str? with
  | none => .error "Framework not specified"
  | some framework_str =>
    if framework_str = "" then .error "Framework not specified"
    else
      match frameworkMemberValue (pyUpperS framework_str) with
      | none => .error "Unknown framework"
      | some frameworkValue =>
        let rule_id := rule_data.id.getD "rule_auto"
        let name := rule_data.name.getD "Unnamed Rule"
        let severity_str := pyLowerS (rule_data.severity.getD "medium")
        let severity := (severityByName (pyUpperS severity_str)).getD .MEDIUM
        let action_str := pyLowerS (rule_data.action.getD "flag")
        let action := (actionByName (pyUpperS action_str)).getD .FLAG
        let description := rule_data.description.getD ""
        let remediation := rule_data.remediation.getD ("Review and remediate " ++ name)
        if rule_data.entity_types = [] ∧ rule_data.keywords = [] ∧ rule_data.patterns = [] then
          .error "no matching criteria"
        else
          .ok { id := rule_id, framework := frameworkValue, name := name,
                description := description, severity := severity,
                entity_types := rule_data.entity_types,
                keywords := rule_data.keywords,
                patterns := rule_data.patterns,
                action := action, remediation := remediation }

/-- `RuleLoader.load_rules_from_file` rule loop (`app/compliance/rules.py`
lines 81-91): each rule is parsed inside `try`/`except`; a parse error is
logged and skipped, the remaining rules still load. -/
def loadRulesFromData (rds : List RuleData) (default_framework : Option String) :
    List ComplianceRule :=
  rds.foldl
    (fun acc rd =>
      match parseRule rd default_framework with
      | .ok r => acc ++ [r]
      | .error _ => acc)
    []

theorem loadRulesFromData_append (rds₁ rds₂ : List RuleData) (dfw : Option String) :
    loadRulesFromData (rds₁ ++ rds₂) dfw =
      loadRulesFromData rds₁ dfw ++ loadRulesFromData rds₂ dfw := by
  have h : ∀ (l : List RuleData) (acc : List ComplianceRule),
      l.foldl (fun acc rd =>
        match parseRule rd dfw with
        | .ok r => acc ++ [r]
        | .error _ => acc) acc
      = acc ++ loadRulesFromData l dfw := by
    intro l
    induction l with
    | nil => intro acc; simp [loadRulesFromData]
    | cons rd rest ih =>
      intro acc
      simp only [loadRulesFromData, List.foldl_cons]
      cases parseRule rd dfw with
      | ok r => rw [ih, ih]; simp
      | error e => rw [ih, ih]; simp
  simp only [loadRulesFromData, List.foldl_append]
  rw [h rds₂]
  rfl

/-! ## Claim C3: injection sub-score -/

/-- C3 (code_bug evidence): in `score_injection_threat` the
`prompt_length > 500` branch is tested before the dead
`prompt_length > 1000` branch, so the multiplier is 1.2 for every length
above 500 and the 1.4 multiplier of the claim is never applied: at
confidence 0.5 and length 1500 the code yields 60 while the specification's
formula yields 70.  The component is 0 whenever confidence ≤ 0.1. -/
theorem injection_scoring_dead_branch :
    (∀ (c : ℚ) (L : Nat),
        score_injection_threat c L =
          min 100 (c * 100 * (if L > 500 then 12/10 else 1)))
    ∧ score_injection_threat (1/2) 1500 = 60
    ∧ spec_injection_sub_score (1/2) 1500 = 70
    ∧ (∀ c : ℚ, c ≤ 1/10 → assess_injection_component c = 0) := by
  refine ⟨?_, ?_, ?_, ?_⟩
  · intro c L
    unfold score_injection_threat
    by_cases h : L > 500
    · simp [h]
    · have h2 : ¬ L > 1000 := by omega
      simp [h, h2]
  · norm_num [score_injection_threat]
  · norm_num [spec_injection_sub_score]
  · intro c hc
    unfold assess_injection_component
    rw [if_neg]
    intro h
    exact absurd hc (not_le.mpr h)

/-- Witness for `injection_scoring_dead_branch`: the hypotheses hold at
confidence 0 (and at the concrete inputs used in the closed conjuncts). -/
theorem injection_scoring_dead_branch_witness :
    (0 : ℚ) ≤ 1/10 ∧ assess_injection_component 0 = 0 :=
  ⟨by norm_num, injection_scoring_dead_branch.2.2.2 0 (by norm_num)⟩

/-! ## Claim C4: compliance violation sub-score -/

/-- C4 counterexample: a CRITICAL violation carrying the canonical PCI
framework value `"PCI-DSS"` (as produced by the rule loader, since
`ComplianceFramework.PCI_DSS.value == "PCI-DSS"`) scores `95 * 1.0 = 95`,
not `min(100, 95 × 1.4)` as the claim states, because the
`FRAMEWORK_WEIGHTS` dictionary keys the weight 1.4 under the different
string `"PCI_DSS"`. -/
theorem pci_weight_counterexample :
    score_compliance_violation
      { rule_id := "r1", framework := "PCI-DSS", rule_name := "PCI rule",
        severity := .CRITICAL, message := [], remediation := "",
        action := .BLOCK } = 95
    ∧ (95 : ℚ) ≠ min 100 (95 * (14/10)) := by
  constructor
  · unfold score_compliance_violation FRAMEWORK_WEIGHTS SEVERITY_SCORES
    rw [if_neg (by decide), if_neg (by decide), if_neg (by decide)]
    norm_num
  · norm_num

/-- C4 (amended): per-violation score is the severity base (LOW 20,
MEDIUM 40, HIGH 70, CRITICAL 95) times a weight keyed on the literal
framework string — 1.5 for `"HIPAA"`, 1.4 only for the literal `"PCI_DSS"`,
1.3 for `"GDPR"`, 1.0 for anything else including the canonical PCI value
`"PCI-DSS"` — capped at 100; hence a CRITICAL violation with framework
`"PCI-DSS"` scores 95. -/
theorem compliance_violation_scoring_amended :
    ∀ v : ComplianceViolation,
      (v.framework = "HIPAA" →
        score_compliance_violation v = min 100 (SEVERITY_SCORES v.severity * (3/2)))
      ∧ (v.framework = "PCI_DSS" →
          score_compliance_violation v = min 100 (SEVERITY_SCORES v.severity * (7/5)))
      ∧ (v.framework = "GDPR" →
          score_compliance_violation v = min 100 (SEVERITY_SCORES v.severity * (13/10)))
      ∧ (v.framework ≠ "HIPAA" → v.framework ≠ "PCI_DSS" → v.framework ≠ "GDPR" →
          score_compliance_violation v = min 100 (SEVERITY_SCORES v.severity))
      ∧ (v.framework = "PCI-DSS" → v.severity = .CRITICAL →
          score_compliance_violation v = 95) := by
  intro v
  refine ⟨?_, ?_, ?_, ?_, ?_⟩
  · intro h
    unfold score_compliance_violation FRAMEWORK_WEIGHTS
    rw [if_pos h]
  · intro h
    unfold score_compliance_violation FRAMEWORK_WEIGHTS
    rw [if_neg (by rw [h]; decide), if_pos h]
  · intro h
    unfold score_compliance_violation FRAMEWORK_WEIGHTS
    rw [if_neg (by rw [h]; decide), if_neg (by rw [h]; decide), if_pos h]
  · intro h1 h2 h3
    unfold score_compliance_violation FRAMEWORK_WEIGHTS
    rw [if_neg h1, if_neg h2, if_neg h3, mul_one]
  · intro h hs
    unfold score_compliance_violation FRAMEWORK_WEIGHTS SEVERITY_SCORES
    rw [hs, if_neg (by rw [h]; decide), if_neg (by rw [h]; decide),
        if_neg (by rw [h]; decide)]
    norm_num

/-- Witness for `compliance_violation_scoring_amended` at a concrete
CRITICAL `"PCI-DSS"` violation. -/
theorem compliance_violation_scoring_amended_witness :
    score_compliance_violation
      { rule_id := "r2", framework := "PCI-DSS", rule_name := "PCI rule",
        severity := .CRITICAL, message := [], remediation := "",
        action := .FLAG } = 95 :=
  (compliance_violation_scoring_amended _).2.2.2.2 rfl rfl

/-! ## Claim C5: rule loading of unknown severity/action tokens -/

/-- Rule definition with an unknown severity token but otherwise valid. -/
def rdBadSeverity : RuleData :=
  { framework := some "HIPAA", id := some "h1", name := some "Rule H1",
    severity := some "bogus", keywords := [['x']] }

/-- Rule definition with an unknown action token but otherwise valid. -/
def rdBadAction : RuleData :=
  { framework := some "GDPR", id := some "g1", name := some "Rule G1",
    action := some "explode", keywords := [['y']] }

/-- Rule definition whose framework token is unknown. -/
def rdBadFramework : RuleData :=
  { framework := some "NOPE", id := some "n1", keywords := [['z']] }

/-- Rule definition that parses successfully. -/
def rdGood : RuleData :=
  { framework := some "gdpr", id := some "ok1", name := some "Good rule",
    severity := some "high", keywords := [['w']] }

/-- The rule produced by `parseRule` from `rdBadSeverity`: the unknown
severity token falls back to MEDIUM instead of rejecting the rule. -/
def ruleFromBadSeverity : ComplianceRule :=
  { id := "h1", framework := "HIPAA", name := "Rule H1", description := "",
    severity := .MEDIUM, entity_types := [], keywords := [['x']],
    patterns := [], action := .FLAG,
    remediation := "Review and remediate Rule H1" }

/-- C5 counterexample: a rule whose severity token `"bogus"` is not a known
`Severity` enumeration value is nevertheless added to the loaded rule list
(with severity silently defaulted to MEDIUM), contradicting the claim that
such a rule is rejected at load.  Likewise an unknown action token defaults
to FLAG and the rule still loads. -/
theorem unknown_token_rule_still_loads :
    severityByName (pyUpperS (pyLowerS (rdBadSeverity.severity.getD "medium"))) = none
    ∧ loadRulesFromData [rdBadSeverity] none = [ruleFromBadSeverity]
    ∧ ruleFromBadSeverity.severity = Severity.MEDIUM
    ∧ actionByName (pyUpperS (pyLowerS (rdBadAction.action.getD "flag"))) = none
    ∧ (loadRulesFromData [rdBadAction] none).length = 1
    ∧ (∀ r ∈ loadRulesFromData [rdBadAction] none, r.action = ComplianceAction.FLAG) := by
  refine ⟨rfl, rfl, rfl, rfl, rfl, ?_⟩
  decide

/-- C5 (amended): rule loading is non-fatal and per-rule; a rule whose
framework token is unknown is rejected (not loaded) while the surrounding
rules still load; but a rule whose severity token is unknown loads with
severity defaulted to MEDIUM, and one whose action token is unknown loads
with action defaulted to FLAG. -/
theorem parseRule_ok_fields (rd : RuleData) (dfw : Option String) (r : ComplianceRule)
    (hok : parseRule rd dfw = .ok r) :
    r.severity = (severityByName (pyUpperS (pyLowerS (rd.severity.getD "medium")))).getD .MEDIUM
    ∧ r.action = (actionByName (pyUpperS (pyLowerS (rd.action.getD "flag")))).getD .FLAG := by
  simp only [parseRule] at hok
  split at hok
  · exact Except.noConfusion hok
  · split at hok
    · exact Except.noConfusion hok
    · split at hok
      · exact Except.noConfusion hok
      · split at hok
        · exact Except.noConfusion hok
        · cases hok
          exact ⟨rfl, rfl⟩

theorem rule_loading_amended :
    ∀ (rd : RuleData) (dfw : Option String),
      (∀ (pre suf : List RuleData),
        loadRulesFromData (pre ++ rd :: suf) dfw =
          loadRulesFromData pre dfw ++ loadRulesFromData [rd] dfw ++
            loadRulesFromData suf dfw)
      ∧ (∀ fs, (match rd.framework with | some s => some s | none => dfw) = some fs →
          fs ≠ "" → frameworkMemberValue (pyUpperS fs) = none →
          loadRulesFromData [rd] dfw = [])
      ∧ (∀ r, parseRule rd dfw = .ok r →
          severityByName (pyUpperS (pyLowerS (rd.severity.getD "medium"))) = none →
          r.severity = .MEDIUM)
      ∧ (∀ r, parseRule rd dfw = .ok r →
          actionByName (pyUpperS (pyLowerS (rd.action.getD "flag"))) = none →
          r.action = .FLAG) := by
  intro rd dfw
  refine ⟨?_, ?_, ?_, ?_⟩
  · intro pre suf
    have h1 : pre ++ rd :: suf = pre ++ ([rd] ++ suf) := by simp
    rw [h1, loadRulesFromData_append, loadRulesFromData_append]
    simp [List.append_assoc]
  · intro fs hfs hne hfm
    unfold loadRulesFromData
    simp only [List.foldl]
    unfold parseRule
    rw [hfs]
    simp only [if_neg hne, hfm]
  · intro r hok hsev
    rw [(parseRule_ok_fields rd dfw r hok).1, hsev]
    rfl
  · intro r hok hact
    rw [(parseRule_ok_fields rd dfw r hok).2, hact]
    rfl

/-- Witness for `rule_loading_amended`: the unknown-framework rule
`rdBadFramework` is dropped while the rules around it load, at concrete
inputs. -/
theorem rule_loading_amended_witness :
    loadRulesFromData ([rdGood] ++ rdBadFramework :: [rdBadAction]) none =
      loadRulesFromData [rdGood] none ++ loadRulesFromData [rdBadFramework] none ++
        loadRulesFromData [rdBadAction] none
    ∧ loadRulesFromData [rdBadFramework] none = [] :=
  ⟨(rule_loading_amended rdBadFramework none).1 [rdGood] [rdBadAction],
   (rule_loading_amended rdBadFramework none).2.1 "NOPE" rfl (by decide) rfl⟩

/-! ## Substring machinery for Python `in`, `str.find`, redaction proofs -/

/-- Boolean test that `v` begins the list `s` (Python `str.startswith`,
used to implement substring search). -/
def isHeadB : Str → Str → Bool
  | [], _ => true
  | _ :: _, [] => false
  | a :: v, b :: s => a == b && isHeadB v s

/-- Proposition that `v` begins `s`. -/
def IsHead (v s : Str) : Prop := ∃ r, s = v ++ r

/-- Proposition that `v` ends `s`. -/
def IsTail (v s : Str) : Prop := ∃ l, s = l ++ v

/-- Proposition that `v` occurs contiguously inside `s` (Python `in`). -/
def IsSub (v s : Str) : Prop := ∃ l r, s = l ++ v ++ r

/-- Boolean substring scan (Python `in` on `str`). -/
def isSubB (v : Str) : Str → Bool
  | [] => isHeadB v []
  | b :: s => isHeadB v (b :: s) || isSubB v s

theorem isHeadB_iff (v : Str) : ∀ s, isHeadB v s = true ↔ IsHead v s := by
  induction v with
  | nil =>
    intro s
    simp [isHeadB, IsHead]
  | cons a v ih =>
    intro s
    cases s with
    | nil =>
      simp [isHeadB, IsHead]
    | cons b s =>
      simp only [isHeadB, Bool.and_eq_true, beq_iff_eq, ih s, IsHead]
      constructor
      · rintro ⟨rfl, r, rfl⟩
        exact ⟨r, rfl⟩
      · rintro ⟨r, h⟩
        cases h
        exact ⟨rfl, r, rfl⟩

theorem isSubB_iff (v : Str) : ∀ s, isSubB v s = true ↔ IsSub v s := by
  intro s
  induction s with
  | nil =>
    simp only [isSubB, isHeadB_iff, IsHead, IsSub]
    constructor
    · rintro ⟨r, h⟩
      exact ⟨[], r, h⟩
    · rintro ⟨l, r, h⟩
      cases l with
      | nil => exact ⟨r, h⟩
      | cons c l => exact absurd h (by simp)
  | cons b s ih =>
    simp only [isSubB, Bool.or_eq_true, isHeadB_iff, ih]
    constructor
    · rintro (⟨r, h⟩ | ⟨l, r, h⟩)
      · exact ⟨[], r, h⟩
      · exact ⟨b :: l, r, by rw [h]; rfl⟩
    · rintro ⟨l, r, h⟩
      cases l with
      | nil => exact Or.inl ⟨r, h⟩
      | cons c l =>
        cases h
        exact Or.inr ⟨l, r, rfl⟩

instance (v s : Str) : Decidable (IsSub v s) :=
  decidable_of_iff (isSubB v s = true) (isSubB_iff v s)

instance (v s : Str) : Decidable (IsHead v s) :=
  decidable_of_iff (isHeadB v s = true) (isHeadB_iff v s)

/-- Python `str.find`: lowest index at which `v` occurs in `s`, `-1` when
absent. -/
def pyFind (v s : Str) : Int :=
  match (List.range (s.length + 1)).find? (fun i => isHeadB v (s.drop i)) with
  | some i => (i : Int)
  | none => -1

/-! ## Compliance engine keyword matching (`app/compliance/engine.py`) -/

/-- Violation constructed by the keyword branch of
`ComplianceEngine._check_rule` (`app/compliance/engine.py` lines 110-128). -/
def mkKeywordViolation (rule : ComplianceRule) (keyword : Str) (text_lower : Str) :
    ComplianceViolation :=
  { rule_id := rule.id, framework := rule.framework, rule_name := rule.name,
    severity := rule.severity,
    message := rule.name.data ++ ": keyword '".data ++ keyword ++ "' found".data,
    remediation := rule.remediation, action := rule.action,
    matched_content := some keyword,
    vstart := some (pyFind (pyLower keyword) text_lower),
    vend := some (pyFind (pyLower keyword) text_lower + keyword.length) }

/-- Keyword loop of `ComplianceEngine._check_rule`: scan `rule.keywords` in
order, emit one violation for the first keyword contained (case-insensitively)
in the text and `break`. -/
def keywordLoop (rule : ComplianceRule) (text_lower : Str) :
    List Str → List ComplianceViolation
  | [] => []
  | k :: ks =>
    if isSubB (pyLower k) text_lower then [mkKeywordViolation rule k text_lower]
    else keywordLoop rule text_lower ks

/-- Keyword branch of `ComplianceEngine._check_rule` (lines 110-128): guarded
by `if rule.keywords:`, with `text_lower = text.lower()`.  The entity-type and
regex-pattern branches of `_check_rule` are independent of this one and are
not needed by the keyword claim. -/
def checkRuleKeywords (rule : ComplianceRule) (text : Str) : List ComplianceViolation :=
  if rule.keywords ≠ [] then keywordLoop rule (pyLower text) rule.keywords else []

theorem keywordLoop_eq_find (rule : ComplianceRule) (tl : Str) :
    ∀ ks : List Str,
      keywordLoop rule tl ks =
        match ks.find? (fun k => isSubB (pyLower k) tl) with
        | some k => [mkKeywordViolation rule k tl]
        | none => [] := by
  intro ks
  induction ks with
  | nil => rfl
  | cons k ks ih =>
    by_cases h : isSubB (pyLower k) tl = true
    · rw [keywordLoop, if_pos h]
      simp [List.find?, h]
    · rw [keywordLoop, if_neg h, ih]
      rw [Bool.not_eq_true] at h
      simp [List.find?, h]

/-- C6 (confirmed): for a rule with a non-empty keyword list, the keyword
branch of `_check_rule` performs a case-insensitive substring search, emits
exactly one violation exactly when some keyword occurs in the text — the
first such keyword in list order, by the `find?` characterisation — and
emits no violation when no keyword occurs; it never emits more than one
keyword violation per rule per check. -/
theorem keyword_match_exactly_one :
    ∀ (rule : ComplianceRule) (text : Str), rule.keywords ≠ [] →
      (checkRuleKeywords rule text).length ≤ 1
      ∧ (checkRuleKeywords rule text =
          match rule.keywords.find? (fun k => isSubB (pyLower k) (pyLower text)) with
          | some k => [mkKeywordViolation rule k (pyLower text)]
          | none => [])
      ∧ ((∃ k ∈ rule.keywords, IsSub (pyLower k) (pyLower text)) ↔
          (checkRuleKeywords rule text).length = 1)
      ∧ ((∀ k ∈ rule.keywords, ¬ IsSub (pyLower k) (pyLower text)) ↔
          checkRuleKeywords rule text = []) := by
  intro rule text hne
  have hck : checkRuleKeywords rule text = keywordLoop rule (pyLower text) rule.keywords := by
    unfold checkRuleKeywords
    rw [if_pos hne]
  rw [hck, keywordLoop_eq_find rule (pyLower text) rule.keywords]
  rcases hfe : rule.keywords.find? (fun k => isSubB (pyLower k) (pyLower text)) with _ | k
  · refine ⟨by simp, rfl, ?_, ?_⟩
    · constructor
      · rintro ⟨k, hk, hs⟩
        have hnp := List.find?_eq_none.mp hfe k hk
        exact absurd ((isSubB_iff _ _).mpr hs) (by simpa using hnp)
      · intro h
        simp at h
    · exact ⟨fun _ => rfl, fun _ k hk hs =>
        absurd ((isSubB_iff _ _).mpr hs) (by simpa using List.find?_eq_none.mp hfe k hk)⟩
  · have hp : isSubB (pyLower k) (pyLower text) = true :=
      @List.find?_some _ (fun k => isSubB (pyLower k) (pyLower text)) k rule.keywords hfe
    have hmem : k ∈ rule.keywords :=
      @List.mem_of_find?_eq_some _ (fun k => isSubB (pyLower k) (pyLower text)) k rule.keywords hfe
    refine ⟨by simp, rfl, ?_, ?_⟩
    · refine ⟨fun _ => by simp, fun _ => ?_⟩
      exact ⟨k, hmem, (isSubB_iff _ _).mp hp⟩
    · constructor
      · intro hall
        exact absurd ((isSubB_iff _ _).mp hp) (hall k hmem)
      · intro h
        exact absurd h (by simp)

/-- Concrete keyword rule from the specification's §8 example. -/
def kwRule : ComplianceRule :=
  { id := "kw1", framework := "GDPR", name := "Confidential data",
    description := "", severity := .MEDIUM,
    keywords := ["confidential".data, "secret".data], action := .FLAG,
    remediation := "" }

/-- Concrete text from the specification's §8 example. -/
def kwText : Str := "This is confidential information".data

/-- Witness for `keyword_match_exactly_one`: the §8 example rule and text
produce exactly one keyword violation. -/
theorem keyword_match_exactly_one_witness :
    kwRule.keywords ≠ [] ∧ (checkRuleKeywords kwRule kwText).length = 1 :=
  ⟨by decide, (keyword_match_exactly_one kwRule kwText (by decide)).2.2.1.mp (by decide)⟩

/-! ## Audit encryption (`app/audit_encryption.py`) -/

/-- Symbolic model of the PBKDF2-HMAC-SHA256 key derivation of
`AuditEncryptor._derive_key`: a derived key is identified by the master
secret and the salt; collision resistance of the KDF is modelled by
constructor injectivity.  Salt and nonce byte strings from `os.urandom` are
abstracted as naturals. -/
inductive DerivedKey where
  | pbkdf2 (masterSecret : String) (salt : Nat)
deriving DecidableEq

/-- Symbolic model of an AES-256-GCM ciphertext produced by
`AESGCM(key).encrypt(nonce, plaintext, None)`: under the ideal-cipher view
the ciphertext is determined by, and determines, (key, nonce, plaintext). -/
inductive Ciphertext where
  | aesgcm (key : DerivedKey) (nonce : Nat) (plaintext : String)
deriving DecidableEq

/-- Ideal authenticated decryption `AESGCM(key).decrypt(nonce, ct, None)`:
succeeds exactly when key and nonce match the ones used at encryption,
otherwise the `InvalidTag` exception (modelled as `none`) is raised. -/
def aesgcmDecrypt (key : DerivedKey) (nonce : Nat) : Ciphertext → Option String
  | .aesgcm k n p => if k = key ∧ n = nonce then some p else none

/-- Result dictionary of `AuditEncryptor.encrypt` (ciphertext, nonce, salt,
version). -/
structure EncryptedBlob where
  ciphertext : Ciphertext
  nonce : Nat
  salt : Nat
  version : String
deriving DecidableEq

/-- `AuditEncryptor.encrypt` (`app/audit_encryption.py` lines 85-121).  The
JSON-serialisable payload is identified with its canonical `json.dumps`
serialisation (a `String`), since `json.loads` inverts it; the random salt
and nonce drawn from `os.urandom` are explicit parameters.  Encryption is
disabled (returns `None`) when the master secret is empty
(`self.enabled = bool(master_secret)`). -/
def AuditEncryptor.encrypt (masterSecret : String) (salt nonce : Nat)
    (data : String) : Option EncryptedBlob :=
  if masterSecret = "" then none
  else some { ciphertext := .aesgcm (.pbkdf2 masterSecret salt) nonce data,
              nonce := nonce, salt := salt, version := "1" }

/-- `AuditEncryptor.decrypt` (`app/audit_encryption.py` lines 123-149):
returns `None` when disabled; otherwise derives the key from the blob's salt
and this decryptor's own master secret and attempts authenticated
decryption; every failure (`InvalidTag` and any other exception) is caught and
returned as `None`. -/
def AuditEncryptor.decrypt (masterSecret : String) (b : EncryptedBlob) :
    Option String :=
  if masterSecret = "" then none
  else aesgcmDecrypt (.pbkdf2 masterSecret b.salt) b.nonce b.ciphertext

/-- C8 (confirmed): for every payload and non-empty key, decrypting the
encryption of the payload under the same key returns the payload; and
decrypting it under any different key returns the failure indicator `none` —
never the original payload and never an uncaught exception (the model is
total). -/
theorem encrypt_decrypt_round_trip :
    ∀ (key : String) (salt nonce : Nat) (payload : String), key ≠ "" →
      ∃ b, AuditEncryptor.encrypt key salt nonce payload = some b
        ∧ AuditEncryptor.decrypt key b = some payload
        ∧ ∀ key2 : String, key2 ≠ key → AuditEncryptor.decrypt key2 b = none := by
  intro key salt nonce payload hk
  refine ⟨{ ciphertext := .aesgcm (.pbkdf2 key salt) nonce payload,
            nonce := nonce, salt := salt, version := "1" }, ?_, ?_, ?_⟩
  · unfold AuditEncryptor.encrypt
    rw [if_neg hk]
  · simp [AuditEncryptor.decrypt, aesgcmDecrypt, hk]
  · intro key2 hk2
    unfold AuditEncryptor.decrypt
    by_cases h2 : key2 = ""
    · rw [if_pos h2]
    · rw [if_neg h2]
      simp only [aesgcmDecrypt, DerivedKey.pbkdf2.injEq]
      rw [if_neg]
      rintro ⟨⟨hkk, -⟩, -⟩
      exact hk2 hkk.symm

/-- Witness for `encrypt_decrypt_round_trip` at concrete keys, salt, nonce
and payload. -/
theorem encrypt_decrypt_round_trip_witness :
    ("k1" : String) ≠ ""
    ∧ ∃ b, AuditEncryptor.encrypt "k1" 3 7 "payload" = some b
        ∧ AuditEncryptor.decrypt "k1" b = some "payload"
        ∧ ∀ key2 : String, key2 ≠ "k1" → AuditEncryptor.decrypt key2 b = none :=
  ⟨by decide, encrypt_decrypt_round_trip "k1" 3 7 "payload" (by decide)⟩

/-! ## Audit ledger (`app/audit_ledger.py`) -/

/-- Symbolic model of `_sha256_hex` applied to the canonical compact JSON
body `(index, timestamp, payload, prev_hash)` built by `AuditLedger.append`
and `AuditLedger.verify`.  The compact canonical serialisation is injective
on the four body fields and SHA-256 is modelled as collision free, so a hash
value is identified with the body it hashes; the two constructors
distinguish a `null` `prev_hash` from a present one. -/
inductive HashV where
  | first (index : Nat) (timestamp payload : String)
  | chained (index : Nat) (timestamp payload : String) (prev : HashV)
deriving DecidableEq

/-- Symbolic model of `_hmac_sign`: HMAC-SHA256 over the same canonical body
under the ledger signing key, modelled as injective on (key, body). -/
inductive SigV where
  | hmac (key : String) (index : Nat) (timestamp payload : String)
      (prevHash : Option HashV)
deriving DecidableEq

/-- `LedgerRecord` of `app/audit_ledger.py`. -/
structure LedgerRecord where
  index : Nat
  timestamp : String
  payload : String
  prev_hash : Option HashV
  hash : HashV
  signature : Option SigV
deriving DecidableEq

/-- Hash of the canonical body, as recomputed in `append` and `verify`. -/
def computeHash (index : Nat) (timestamp payload : String)
    (prev_hash : Option HashV) : HashV :=
  match prev_hash with
  | none => .first index timestamp payload
  | some h => .chained index timestamp payload h

/-- Signature of the canonical body under `key`. -/
def computeSig (key : String) (index : Nat) (timestamp payload : String)
    (prev_hash : Option HashV) : SigV :=
  .hmac key index timestamp payload prev_hash

/-- Body of the per-record loop of `AuditLedger.verify`: recompute the hash
from the stored body fields and compare, check the chain link against
`expected_prev`, and, when a key is configured, require and check the
signature. -/
def recOk (key : Option String) (expected_prev : Option HashV)
    (r : LedgerRecord) : Bool :=
  computeHash r.index r.timestamp r.payload r.prev_hash == r.hash
  && r.prev_hash == expected_prev
  && (match key with
      | none => true
      | some k =>
        match r.signature with
        | none => false
        | some s => computeSig k r.index r.timestamp r.payload r.prev_hash == s)

/-- Loop of `AuditLedger.verify` (`app/audit_ledger.py` lines 143-176),
threading `expected_prev = rec.hash` between iterations. -/
def chainOk (key : Option String) : Option HashV → List LedgerRecord → Bool
  | _, [] => true
  | expected_prev, r :: rest =>
    recOk key expected_prev r && chainOk key (some r.hash) rest

/-- `AuditLedger.verify`: walk every record in file order starting from
`expected_prev = None`. -/
def ledgerVerify (key : Option String) (records : List LedgerRecord) : Bool :=
  chainOk key none records

/-- `AuditLedger.append` (`app/audit_ledger.py` lines 102-141): scan the
existing chain for the last record, derive index and `prev_hash` from it,
hash the canonical body, sign iff a signing key is configured, and append
the record.  The caller-supplied `timestamp` stands for
`datetime.now(timezone.utc).isoformat()`. -/
def appendRecord (key : Option String) (chain : List LedgerRecord)
    (timestamp payload : String) : List LedgerRecord :=
  let last := chain.getLast?
  let index := match last with | some l => l.index + 1 | none => 0
  let prev_hash := match last with | some l => some l.hash | none => none
  let record_hash := computeHash index timestamp payload prev_hash
  let signature := key.map fun k => computeSig k index timestamp payload prev_hash
  chain ++ [{ index := index, timestamp := timestamp, payload := payload,
              prev_hash := prev_hash, hash := record_hash,
              signature := signature }]

/-- Chain produced by N sequential `append` calls on a fresh ledger file. -/
def buildChain (key : Option String) (entries : List (String × String)) :
    List LedgerRecord :=
  entries.foldl (fun c e => appendRecord key c e.1 e.2) []

/-- Expected previous hash after the verify loop has walked `l` starting
from `e`. -/
def expectedAfter (e : Option HashV) (l : List LedgerRecord) : Option HashV :=
  match l.getLast? with
  | some r => some r.hash
  | none => e

/-- Record indices are consecutive starting at `n`. -/
def IndicesFrom : Nat → List LedgerRecord → Prop
  | _, [] => True
  | n, r :: rest => r.index = n ∧ IndicesFrom (n + 1) rest

theorem expectedAfter_cons (e : Option HashV) (r : LedgerRecord)
    (l : List LedgerRecord) :
    expectedAfter e (r :: l) = expectedAfter (some r.hash) l := by
  cases l with
  | nil => rfl
  | cons q l => rfl

theorem chainOk_append (key : Option String) :
    ∀ (l₁ l₂ : List LedgerRecord) (e : Option HashV),
      chainOk key e (l₁ ++ l₂)
        = (chainOk key e l₁ && chainOk key (expectedAfter e l₁) l₂) := by
  intro l₁
  induction l₁ with
  | nil =>
    intro l₂ e
    simp [chainOk, expectedAfter]
  | cons r l₁ ih =>
    intro l₂ e
    simp only [List.cons_append, chainOk, List.append_eq, ih, expectedAfter_cons,
      Bool.and_assoc]

theorem indicesFrom_append :
    ∀ (l₁ l₂ : List LedgerRecord) (n : Nat),
      IndicesFrom n (l₁ ++ l₂) ↔ IndicesFrom n l₁ ∧ IndicesFrom (n + l₁.length) l₂ := by
  intro l₁
  induction l₁ with
  | nil =>
    intro l₂ n
    simp [IndicesFrom]
  | cons r l₁ ih =>
    intro l₂ n
    simp only [List.cons_append, IndicesFrom, List.append_eq, ih, List.length_cons]
    constructor
    · rintro ⟨h1, h2, h3⟩
      refine ⟨⟨h1, h2⟩, ?_⟩
      have : n + 1 + l₁.length = n + (l₁.length + 1) := by omega
      rwa [this] at h3
    · rintro ⟨⟨h1, h2⟩, h3⟩
      refine ⟨h1, h2, ?_⟩
      have : n + 1 + l₁.length = n + (l₁.length + 1) := by omega
      rwa [this]

theorem indicesFrom_getLast? :
    ∀ (l : List LedgerRecord) (n : Nat) (x : LedgerRecord),
      IndicesFrom n l → l.getLast? = some x → x.index = n + l.length - 1 := by
  intro l
  induction l with
  | nil =>
    intro n x _ hx
    exact Option.noConfusion hx
  | cons r rest ih =>
    intro n x hind hx
    cases rest with
    | nil =>
      simp only [List.getLast?_singleton, Option.some.injEq] at hx
      rw [← hx]
      simpa using hind.1
    | cons q rest2 =>
      have hx2 : (q :: rest2).getLast? = some x := by
        rw [← hx]
        rfl
      have := ih (n + 1) x hind.2 hx2
      simp only [List.length_cons] at this ⊢
      omega

theorem chainOk_hash_of_mem (key : Option String) :
    ∀ (l : List LedgerRecord) (e : Option HashV) (r : LedgerRecord),
      chainOk key e l = true → r ∈ l →
      computeHash r.index r.timestamp r.payload r.prev_hash = r.hash := by
  intro l
  induction l with
  | nil =>
    intro e r _ hmem
    exact absurd hmem (List.not_mem_nil r)
  | cons q rest ih =>
    intro e r hok hmem
    rw [chainOk, Bool.and_eq_true] at hok
    rcases List.mem_cons.mp hmem with rfl | hmem2
    · have h1 := hok.1
      simp only [recOk, Bool.and_eq_true] at h1
      exact beq_iff_eq.mp h1.1.1
    · exact ih (some q.hash) r hok.2 hmem2

theorem expectedAfter_eq_prev (c : List LedgerRecord) :
    expectedAfter none c
      = match c.getLast? with | some l => some l.hash | none => none := by
  unfold expectedAfter
  cases c.getLast? <;> rfl

theorem appendRecord_chainOk (key : Option String) (c : List LedgerRecord)
    (ts p : String) (hok : chainOk key none c = true) :
    chainOk key none (appendRecord key c ts p) = true := by
  simp only [appendRecord]
  rw [chainOk_append, hok, Bool.true_and]
  simp only [chainOk, Bool.and_true, recOk, expectedAfter_eq_prev]
  cases key <;> simp

theorem appendRecord_indices (key : Option String) (c : List LedgerRecord)
    (ts p : String) (hind : IndicesFrom 0 c) :
    IndicesFrom 0 (appendRecord key c ts p) := by
  simp only [appendRecord]
  rw [indicesFrom_append]
  refine ⟨hind, ?_, trivial⟩
  cases hlast : c.getLast? with
  | none =>
    have hc : c = [] := by
      cases c with
      | nil => rfl
      | cons x xs => simp at hlast
    subst hc
    rfl
  | some l =>
    have hlen : 1 ≤ c.length := by
      cases c with
      | nil => simp at hlast
      | cons x xs => simp
    have hli : l.index = 0 + c.length - 1 := indicesFrom_getLast? c 0 l hind hlast
    show l.index + 1 = 0 + c.length
    omega

theorem buildChain_inv (key : Option String) (entries : List (String × String)) :
    chainOk key none (buildChain key entries) = true
    ∧ IndicesFrom 0 (buildChain key entries) := by
  unfold buildChain
  suffices h : ∀ (es : List (String × String)) (c : List LedgerRecord),
      chainOk key none c = true → IndicesFrom 0 c →
      chainOk key none (es.foldl (fun c e => appendRecord key c e.1 e.2) c) = true
      ∧ IndicesFrom 0 (es.foldl (fun c e => appendRecord key c e.1 e.2) c) by
    exact h entries [] rfl trivial
  intro es
  induction es with
  | nil => exact fun c h1 h2 => ⟨h1, h2⟩
  | cons e es ih =>
    intro c h1 h2
    exact ih _ (appendRecord_chainOk key c e.1 e.2 h1)
      (appendRecord_indices key c e.1 e.2 h2)

/-- One persisted field of a ledger record (payload, prev_hash, hash or
signature) has been changed, all other fields kept. -/
def MutatesOneField (r r2 : LedgerRecord) : Prop :=
  (r2.payload ≠ r.payload ∧ r2.index = r.index ∧ r2.timestamp = r.timestamp
    ∧ r2.prev_hash = r.prev_hash ∧ r2.hash = r.hash ∧ r2.signature = r.signature)
  ∨ (r2.prev_hash ≠ r.prev_hash ∧ r2.index = r.index ∧ r2.timestamp = r.timestamp
    ∧ r2.payload = r.payload ∧ r2.hash = r.hash ∧ r2.signature = r.signature)
  ∨ (r2.hash ≠ r.hash ∧ r2.index = r.index ∧ r2.timestamp = r.timestamp
    ∧ r2.payload = r.payload ∧ r2.prev_hash = r.prev_hash ∧ r2.signature = r.signature)
  ∨ (r2.signature ≠ r.signature ∧ r2.index = r.index ∧ r2.timestamp = r.timestamp
    ∧ r2.payload = r.payload ∧ r2.prev_hash = r.prev_hash ∧ r2.hash = r.hash)

instance (r r2 : LedgerRecord) : Decidable (MutatesOneField r r2) := by
  unfold MutatesOneField
  infer_instance

theorem recOk_parts (key : Option String) (e : Option HashV) (r : LedgerRecord)
    (h : recOk key e r = true) :
    computeHash r.index r.timestamp r.payload r.prev_hash = r.hash
    ∧ r.prev_hash = e
    ∧ ∀ k, key = some k →
        r.signature = some (computeSig k r.index r.timestamp r.payload r.prev_hash) := by
  simp only [recOk, Bool.and_eq_true, beq_iff_eq] at h
  refine ⟨h.1.1, h.1.2, ?_⟩
  intro k hk
  subst hk
  have h3 := h.2
  rcases hsig : r.signature with _ | s
  · rw [hsig] at h3
    simp at h3
  · rw [hsig] at h3
    simp only [beq_iff_eq] at h3
    rw [h3]

theorem chainOk_mutation (key : Option String) (pre post : List LedgerRecord)
    (r r2 : LedgerRecord)
    (hvalid : chainOk key none (pre ++ r :: post) = true)
    (hmut : MutatesOneField r r2)
    (hsig : r2.signature = r.signature ∨ key ≠ none) :
    chainOk key none (pre ++ r2 :: post) = false := by
  cases hcase : chainOk key none (pre ++ r2 :: post) with
  | false => rfl
  | true =>
    exfalso
    rw [chainOk_append, Bool.and_eq_true] at hvalid
    rw [chainOk_append, Bool.and_eq_true] at hcase
    have hr : recOk key (expectedAfter none pre) r = true := by
      have h := hvalid.2
      rw [chainOk, Bool.and_eq_true] at h
      exact h.1
    have hr2 : recOk key (expectedAfter none pre) r2 = true := by
      have h := hcase.2
      rw [chainOk, Bool.and_eq_true] at h
      exact h.1
    obtain ⟨hh1, hp1, hs1⟩ := recOk_parts _ _ _ hr
    obtain ⟨hh2, hp2, hs2⟩ := recOk_parts _ _ _ hr2
    rcases hmut with ⟨hne, hi, ht, hprev, hhash, -⟩ | ⟨hne, -, -, -, -, -⟩
      | ⟨hne, hi, ht, hpay, hprev, -⟩ | ⟨hne, hi, ht, hpay, hprev, hhash⟩
    · apply hne
      rw [hi, ht, hprev, hhash, ← hh1] at hh2
      unfold computeHash at hh2
      cases hpc : r.prev_hash with
      | none =>
        rw [hpc] at hh2
        injection hh2 with h1 h2 h3
      | some h0 =>
        rw [hpc] at hh2
        injection hh2 with h1 h2 h3 h4
    · exact hne (hp2.trans hp1.symm)
    · apply hne
      rw [hi, ht, hpay, hprev] at hh2
      exact hh2.symm.trans hh1
    · rcases hsig with heq | hk
      · exact hne heq
      · rcases hkey : key with _ | k
        · exact hk hkey
        · have e1 := hs1 k hkey
          have e2 := hs2 k hkey
          rw [hi, ht, hpay, hprev] at e2
          exact hne (e2.trans e1.symm)

theorem chainOk_deletion (key : Option String) (pre post2 : List LedgerRecord)
    (r q : LedgerRecord)
    (hvalid : chainOk key none (pre ++ r :: q :: post2) = true)
    (hind : IndicesFrom 0 (pre ++ r :: q :: post2))
    (hpre : pre ≠ []) :
    chainOk key none (pre ++ q :: post2) = false := by
  cases hcase : chainOk key none (pre ++ q :: post2) with
  | false => rfl
  | true =>
    exfalso
    rw [chainOk_append, Bool.and_eq_true] at hvalid
    rw [chainOk_append, Bool.and_eq_true] at hcase
    have hr : recOk key (expectedAfter none pre) r = true := by
      have h := hvalid.2
      rw [chainOk, Bool.and_eq_true] at h
      exact h.1
    have hq : recOk key (some r.hash) q = true := by
      have h := hvalid.2
      rw [chainOk, Bool.and_eq_true] at h
      have h2 := h.2
      rw [chainOk, Bool.and_eq_true] at h2
      exact h2.1
    have hq2 : recOk key (expectedAfter none pre) q = true := by
      have h := hcase.2
      rw [chainOk, Bool.and_eq_true] at h
      exact h.1
    obtain ⟨hhr, -, -⟩ := recOk_parts _ _ _ hr
    obtain ⟨-, hpq, -⟩ := recOk_parts _ _ _ hq
    obtain ⟨-, hpq2, -⟩ := recOk_parts _ _ _ hq2
    obtain ⟨l, hl⟩ : ∃ l, pre.getLast? = some l := by
      cases hp : pre.getLast? with
      | none =>
        cases pre with
        | nil => exact absurd rfl hpre
        | cons x xs => simp at hp
      | some l => exact ⟨l, rfl⟩
    have he0 : expectedAfter none pre = some l.hash := by
      unfold expectedAfter
      rw [hl]
    have hrl : r.hash = l.hash := by
      have h := hpq.symm.trans hpq2
      rw [he0] at h
      exact Option.some.inj h
    have hlmem : l ∈ pre :=
      List.mem_of_mem_getLast? (by rw [hl]; exact Option.mem_some_iff.mpr rfl)
    have hhl := chainOk_hash_of_mem key pre none l hvalid.1 hlmem
    have hindpre : IndicesFrom 0 pre := ((indicesFrom_append pre _ 0).mp hind).1
    have hindrest := ((indicesFrom_append pre _ 0).mp hind).2
    have hri : r.index = pre.length := by
      have h := hindrest.1
      omega
    have hli : l.index = 0 + pre.length - 1 := indicesFrom_getLast? pre 0 l hindpre hl
    have hlen : 1 ≤ pre.length := by
      cases pre with
      | nil => exact absurd rfl hpre
      | cons x xs => simp
    rw [← hhr, ← hhl] at hrl
    unfold computeHash at hrl
    have hidx : r.index = l.index := by
      cases hc1 : r.prev_hash with
      | none =>
        cases hc2 : l.prev_hash with
        | none =>
          rw [hc1, hc2] at hrl
          injection hrl
        | some h0 =>
          rw [hc1, hc2] at hrl
          exact HashV.noConfusion hrl
      | some h0 =>
        cases hc2 : l.prev_hash with
        | none =>
          rw [hc1, hc2] at hrl
          exact HashV.noConfusion hrl
        | some h1 =>
          rw [hc1, hc2] at hrl
          injection hrl
    omega

/-- Record appended by a fresh unsigned ledger for `("t","p")`. -/
def unsignedRec : LedgerRecord :=
  { index := 0, timestamp := "t", payload := "p", prev_hash := none,
    hash := .first 0 "t" "p", signature := none }

/-- The same record with only its signature field mutated. -/
def unsignedRecMut : LedgerRecord :=
  { index := 0, timestamp := "t", payload := "p", prev_hash := none,
    hash := .first 0 "t" "p", signature := some (.hmac "x" 0 "t" "p" none) }

/-- C1 counterexample: on a ledger with no signing key configured,
`verify` ignores the signature field entirely, so mutating the signature of
a persisted record does not make `verify` return false, contradicting the
claim that mutating any single field (including `signature`) fails
verification. -/
theorem ledger_signature_mutation_undetected :
    buildChain none [("t", "p")] = [unsignedRec]
    ∧ MutatesOneField unsignedRec unsignedRecMut
    ∧ ledgerVerify none [unsignedRecMut] = true := by
  refine ⟨rfl, ?_, rfl⟩
  decide

/-- C1 (amended): for any sequence of N ≥ 1 sequential `append`s on a
fresh ledger, `verify` returns true; and on the resulting chain, mutating
the payload, prev_hash or hash of any one record makes `verify` return
false, mutating the signature makes `verify` return false provided a signing
key is configured (with no key, signatures are not checked), and deleting a
middle record makes `verify` return false. -/
theorem ledger_append_verify_tamper :
    ∀ (key : Option String) (entries : List (String × String)), entries ≠ [] →
      ledgerVerify key (buildChain key entries) = true
      ∧ (∀ (pre post : List LedgerRecord) (r r2 : LedgerRecord),
          buildChain key entries = pre ++ r :: post →
          MutatesOneField r r2 →
          (r2.signature = r.signature ∨ key ≠ none) →
          ledgerVerify key (pre ++ r2 :: post) = false)
      ∧ (∀ (pre post : List LedgerRecord) (r : LedgerRecord),
          buildChain key entries = pre ++ r :: post →
          pre ≠ [] → post ≠ [] →
          ledgerVerify key (pre ++ post) = false) := by
  intro key entries _
  obtain ⟨hok, hind⟩ := buildChain_inv key entries
  refine ⟨hok, ?_, ?_⟩
  · intro pre post r r2 hchain hmut hsig
    rw [hchain] at hok
    exact chainOk_mutation key pre post r r2 hok hmut hsig
  · intro pre post r hchain hpre hpost
    cases post with
    | nil => exact absurd rfl hpost
    | cons q post2 =>
      rw [hchain] at hok hind
      exact chainOk_deletion key pre post2 r q hok hind hpre

/-- First record of the signed three-record witness chain. -/
def signedRec0 : LedgerRecord :=
  { index := 0, timestamp := "t0", payload := "p0", prev_hash := none,
    hash := .first 0 "t0" "p0",
    signature := some (.hmac "k" 0 "t0" "p0" none) }

/-- `signedRec0` with only its payload mutated. -/
def signedRec0Mut : LedgerRecord :=
  { index := 0, timestamp := "t0", payload := "q0", prev_hash := none,
    hash := .first 0 "t0" "p0",
    signature := some (.hmac "k" 0 "t0" "p0" none) }

/-- Witness for `ledger_append_verify_tamper`: a concrete signed ledger of
three appends verifies, and mutating the first record's payload breaks
verification. -/
theorem ledger_append_verify_tamper_witness :
    ledgerVerify (some "k")
      (buildChain (some "k") [("t0", "p0"), ("t1", "p1"), ("t2", "p2")]) = true
    ∧ ledgerVerify (some "k") ([] ++ signedRec0Mut :: []) = false :=
  ⟨(ledger_append_verify_tamper (some "k")
      [("t0", "p0"), ("t1", "p1"), ("t2", "p2")] (by decide)).1,
   (ledger_append_verify_tamper (some "k") [("t0", "p0")] (by decide)).2.1
     [] [] signedRec0 signedRec0Mut (by decide) (by decide) (Or.inl (by decide))⟩

/-- C9 (confirmed): every prefix of an append-built chain verifies; in
particular dropping the final record (tail truncation) leaves a valid chain,
and the empty ledger file verifies. -/
theorem ledger_prefix_verify :
    ∀ (key : Option String) (entries : List (String × String)) (n : Nat),
      ledgerVerify key ((buildChain key entries).take n) = true
      ∧ ledgerVerify key ((buildChain key entries).dropLast) = true
      ∧ ledgerVerify key (buildChain key []) = true := by
  intro key entries n
  have hok := (buildChain_inv key entries).1
  have hpre : ∀ m, chainOk key none ((buildChain key entries).take m) = true := by
    intro m
    have hsplit := chainOk_append key ((buildChain key entries).take m)
      ((buildChain key entries).drop m) none
    rw [List.take_append_drop, hok] at hsplit
    have h2 := hsplit.symm
    rw [Bool.and_eq_true] at h2
    exact h2.1
  refine ⟨hpre n, ?_, rfl⟩
  rw [List.dropLast_eq_take]
  exact hpre _

/-! ## Redaction service (`app/compliance/redaction.py`) -/

/-- Detected entity dictionary as consumed by `RedactionService`: `type`,
`value`, `start`, `end` (named `stop` here since `end` is reserved in Lean).
Spans are naturals: an entity with a negative `start` is excluded both by the
code's validity filter and by every claim's validity hypothesis, so nothing
is lost by the `Nat` representation.  Extra detector fields (confidence)
play no role in redaction and are omitted. -/
structure Entity where
  etype : Str
  value : Str
  start : Nat
  stop : Nat
deriving DecidableEq

/-- Python slice `text[a:b]` for `0 ≤ a, b`. -/
def pySlice (s : Str) (a b : Nat) : Str := (s.take b).drop a

/-- Python `"x|y".split("|")`. -/
def splitOnBar (s : Str) : List Str :=
  s.foldr
    (fun c acc =>
      match acc with
      | [] => if c = '|' then [[], []] else [[c]]
      | g :: rest => if c = '|' then [] :: g :: rest else (c :: g) :: rest)
    [[]]

/-- Python `str.strip()`. -/
def stripStr (s : Str) : Str :=
  ((s.dropWhile Char.isWhitespace).reverse.dropWhile Char.isWhitespace).reverse

/-- Lexicographic comparison of Python strings by code point. -/
def strLeB : Str → Str → Bool
  | [], _ => true
  | _ :: _, [] => false
  | x :: xs, y :: ys =>
    if x < y then true
    else if y < x then false
    else strLeB xs ys

/-- Insertion step of a stable lexicographic sort. -/
def insertStr (a : Str) : List Str → List Str
  | [] => [a]
  | b :: l => if strLeB a b then a :: b :: l else b :: insertStr a l

/-- Python `sorted` on a list of strings. -/
def sortStrs : List Str → List Str
  | [] => []
  | a :: l => insertStr a (sortStrs l)

/-- Python `"|".join`. -/
def joinBar : List Str → Str
  | [] => []
  | [x] => x
  | x :: xs => x ++ '|' :: joinBar xs

/-- Type union of `_merge_entities` (`app/compliance/redaction.py` lines
76-81): split the current type on `"|"`, strip each part, treat as a set,
add the next type, sort, and join with `"|"`. -/
def mergeTypeNames (cType nType : Str) : Str :=
  let types := ((splitOnBar cType).map stripStr).dedup
  let types2 := if nType ∈ types then types else types ++ [nType]
  joinBar (sortStrs types2)

/-- Insertion step of the stable ascending sort by `start`
(Python `sorted(..., key=lambda e: e.get("start", 0))`). -/
def insertByStart (a : Entity) : List Entity → List Entity
  | [] => [a]
  | b :: l => if a.start ≤ b.start then a :: b :: l else b :: insertByStart a l

/-- Stable ascending sort by `start`. -/
def sortByStart : List Entity → List Entity
  | [] => []
  | a :: l => insertByStart a (sortByStart l)

/-- Insertion step of the stable descending sort by `start`
(Python `sorted(..., key=..., reverse=True)`). -/
def insertByStartDesc (a : Entity) : List Entity → List Entity
  | [] => [a]
  | b :: l => if b.start ≤ a.start then a :: b :: l else b :: insertByStartDesc a l

/-- Stable descending sort by `start`. -/
def sortByStartDesc : List Entity → List Entity
  | [] => []
  | a :: l => insertByStartDesc a (sortByStartDesc l)

/-- Merge loop of `RedactionService._merge_entities` (lines 66-89): when the
next entity starts at or before the current span's end, extend the span,
union the types and recompute the value from the text; otherwise emit the
current span and continue from the next entity. -/
def mergeLoop (text : Str) (current : Entity) : List Entity → List Entity
  | [] => [current]
  | n :: rest =>
    if n.start ≤ current.stop then
      mergeLoop text
        { etype :=
            if n.etype ≠ current.etype then mergeTypeNames current.etype n.etype
            else current.etype,
          value := pySlice text current.start (max current.stop n.stop),
          start := current.start,
          stop := max current.stop n.stop } rest
    else
      current :: mergeLoop text n rest

/-- `RedactionService._merge_entities` (lines 47-90): drop invalid entities
(`start ≥ 0` is automatic for `Nat`; `end > start` is the filter), sort by
`start` and run the merge loop. -/
def mergeEntities (entities : List Entity) (text : Str) : List Entity :=
  if entities = [] then []
  else
    let valid := entities.filter (fun e => decide (e.start < e.stop))
    if valid = [] then []
    else
      match sortByStart valid with
      | [] => []
      | c :: rest => mergeLoop text c rest

/-- Position `i` lies inside some entity span of `es`. -/
def covers (es : List Entity) (i : Nat) : Prop := ∃ e ∈ es, e.start ≤ i ∧ i < e.stop

theorem covers_cons (e : Entity) (es : List Entity) (i : Nat) :
    covers (e :: es) i ↔ (e.start ≤ i ∧ i < e.stop) ∨ covers es i := by
  unfold covers
  constructor
  · rintro ⟨f, hf, h⟩
    rcases List.mem_cons.mp hf with rfl | hf2
    · exact Or.inl h
    · exact Or.inr ⟨f, hf2, h⟩
  · rintro (h | ⟨f, hf, h⟩)
    · exact ⟨e, List.mem_cons_self e es, h⟩
    · exact ⟨f, List.mem_cons_of_mem e hf, h⟩

theorem covers_perm {es₁ es₂ : List Entity} (h : es₁.Perm es₂) (i : Nat) :
    covers es₁ i ↔ covers es₂ i := by
  unfold covers
  constructor
  · rintro ⟨e, he, hh⟩
    exact ⟨e, h.subset he, hh⟩
  · rintro ⟨e, he, hh⟩
    exact ⟨e, h.symm.subset he, hh⟩

theorem insertByStart_perm (a : Entity) :
    ∀ l : List Entity, (insertByStart a l).Perm (a :: l) := by
  intro l
  induction l with
  | nil => exact List.Perm.refl _
  | cons b l ih =>
    rw [insertByStart]
    by_cases h : a.start ≤ b.start
    · rw [if_pos h]
    · rw [if_neg h]
      exact (List.Perm.cons b ih).trans (List.Perm.swap a b l)

theorem sortByStart_perm : ∀ l : List Entity, (sortByStart l).Perm l := by
  intro l
  induction l with
  | nil => exact List.Perm.refl _
  | cons a l ih =>
    rw [sortByStart]
    exact (insertByStart_perm a (sortByStart l)).trans (List.Perm.cons a ih)

theorem insertByStart_pairwise (a : Entity) :
    ∀ l : List Entity, List.Pairwise (fun x y => x.start ≤ y.start) l →
      List.Pairwise (fun x y => x.start ≤ y.start) (insertByStart a l) := by
  intro l
  induction l with
  | nil =>
    intro _
    exact List.pairwise_singleton _ a
  | cons b l ih =>
    intro hp
    rw [List.pairwise_cons] at hp
    obtain ⟨hb, hl⟩ := hp
    rw [insertByStart]
    by_cases h : a.start ≤ b.start
    · rw [if_pos h]
      rw [List.pairwise_cons]
      refine ⟨?_, List.pairwise_cons.mpr ⟨hb, hl⟩⟩
      intro x hx
      rcases List.mem_cons.mp hx with rfl | hx2
      · exact h
      · exact le_trans h (hb x hx2)
    · rw [if_neg h]
      rw [List.pairwise_cons]
      refine ⟨?_, ih hl⟩
      intro x hx
      have hx3 := (insertByStart_perm a l).subset hx
      rcases List.mem_cons.mp hx3 with rfl | hx4
      · omega
      · exact hb x hx4

theorem sortByStart_pairwise :
    ∀ l : List Entity, List.Pairwise (fun x y => x.start ≤ y.start) (sortByStart l) := by
  intro l
  induction l with
  | nil => exact List.Pairwise.nil
  | cons a l ih =>
    rw [sortByStart]
    exact insertByStart_pairwise a (sortByStart l) ih

theorem mergeLoop_spec (text : Str) :
    ∀ (rest : List Entity) (cur : Entity),
      cur.start < cur.stop →
      (∀ e ∈ rest, e.start < e.stop) →
      (∀ e ∈ rest, cur.start ≤ e.start) →
      List.Pairwise (fun a b => a.start ≤ b.start) rest →
      List.Pairwise (fun a b => a.stop < b.start) (mergeLoop text cur rest)
      ∧ (∀ e ∈ mergeLoop text cur rest, e.start < e.stop)
      ∧ (∀ e ∈ mergeLoop text cur rest, cur.start ≤ e.start)
      ∧ (∀ i, covers (mergeLoop text cur rest) i ↔
          ((cur.start ≤ i ∧ i < cur.stop) ∨ covers rest i)) := by
  intro rest
  induction rest with
  | nil =>
    intro cur h1 _ _ _
    rw [mergeLoop]
    refine ⟨List.pairwise_singleton _ cur, ?_, ?_, ?_⟩
    · intro e he
      rcases List.mem_cons.mp he with rfl | he2
      · exact h1
      · exact absurd he2 (List.not_mem_nil e)
    · intro e he
      rcases List.mem_cons.mp he with rfl | he2
      · exact le_refl _
      · exact absurd he2 (List.not_mem_nil e)
    · intro i
      rw [covers_cons]
  | cons n rest ih =>
    intro cur h1 h2 h3 h4
    have hcn : cur.start ≤ n.start := h3 n (List.mem_cons_self n rest)
    have hn : n.start < n.stop := h2 n (List.mem_cons_self n rest)
    rw [List.pairwise_cons] at h4
    obtain ⟨hnle, hrest⟩ := h4
    rw [mergeLoop]
    by_cases hc : n.start ≤ cur.stop
    · rw [if_pos hc]
      obtain ⟨m1, m2, m3, m4⟩ := ih
        { etype :=
            if n.etype ≠ cur.etype then mergeTypeNames cur.etype n.etype
            else cur.etype,
          value := pySlice text cur.start (max cur.stop n.stop),
          start := cur.start,
          stop := max cur.stop n.stop }
        (by show cur.start < max cur.stop n.stop; omega)
        (fun e he => h2 e (List.mem_cons_of_mem n he))
        (fun e he => h3 e (List.mem_cons_of_mem n he))
        hrest
      refine ⟨m1, m2, m3, ?_⟩
      intro i
      rw [m4 i, covers_cons]
      constructor
      · rintro (⟨ha, hb⟩ | h)
        · simp only at ha hb
          by_cases hlt : i < cur.stop
          · exact Or.inl ⟨ha, hlt⟩
          · exact Or.inr (Or.inl ⟨by omega, by omega⟩)
        · exact Or.inr (Or.inr h)
      · rintro (⟨ha, hb⟩ | ⟨ha, hb⟩ | h)
        · exact Or.inl ⟨ha, by simp only; omega⟩
        · exact Or.inl ⟨by simp only; omega, by simp only; omega⟩
        · exact Or.inr h
    · rw [if_neg hc]
      obtain ⟨m1, m2, m3, m4⟩ := ih n hn
        (fun e he => h2 e (List.mem_cons_of_mem n he)) hnle hrest
      refine ⟨?_, ?_, ?_, ?_⟩
      · rw [List.pairwise_cons]
        refine ⟨?_, m1⟩
        intro e he
        have := m3 e he
        omega
      · intro e he
        rcases List.mem_cons.mp he with rfl | he2
        · exact h1
        · exact m2 e he2
      · intro e he
        rcases List.mem_cons.mp he with rfl | he2
        · exact le_refl _
        · exact le_trans hcn (m3 e he2)
      · intro i
        rw [covers_cons, m4 i, covers_cons]

theorem pairwise_le_of_sep :
    ∀ l : List Entity, List.Pairwise (fun a b => a.stop < b.start) l →
      (∀ e ∈ l, e.start < e.stop) →
      List.Pairwise (fun a b => a.start ≤ b.start) l := by
  intro l
  induction l with
  | nil => intro _ _; exact List.Pairwise.nil
  | cons a l ih =>
    intro hp hv
    rw [List.pairwise_cons] at hp ⊢
    refine ⟨?_, ih hp.2 (fun e he => hv e (List.mem_cons_of_mem a he))⟩
    intro b hb
    have h1 := hp.1 b hb
    have h2 := hv a (List.mem_cons_self a l)
    omega

theorem mergeEntities_props :
    ∀ (text : Str) (es : List Entity),
      (∀ e ∈ es, e.start < e.stop) →
      List.Pairwise (fun a b => a.stop < b.start) (mergeEntities es text)
      ∧ (∀ e ∈ mergeEntities es text, e.start < e.stop)
      ∧ List.Pairwise (fun a b => a.start ≤ b.start) (mergeEntities es text)
      ∧ (∀ i, covers (mergeEntities es text) i ↔ covers es i) := by
  intro text es hval
  by_cases hes : es = []
  · subst hes
    refine ⟨List.Pairwise.nil, by simp [mergeEntities], List.Pairwise.nil, fun i => Iff.rfl⟩
  · have hfilter : es.filter (fun e => decide (e.start < e.stop)) = es :=
      List.filter_eq_self.mpr (fun a ha => decide_eq_true (hval a ha))
    have hme : mergeEntities es text =
        match sortByStart es with
        | [] => []
        | c :: rest => mergeLoop text c rest := by
      unfold mergeEntities
      rw [if_neg hes]
      simp only [hfilter]
      rw [if_neg hes]
    have hperm := sortByStart_perm es
    have hsorted := sortByStart_pairwise es
    rw [hme]
    cases hs : sortByStart es with
    | nil =>
      rw [hs] at hperm
      exact absurd (List.Perm.eq_nil hperm.symm) hes
    | cons c rest =>
      rw [hs] at hperm hsorted
      have hval2 : ∀ e ∈ c :: rest, e.start < e.stop :=
        fun e he => hval e (hperm.subset he)
      rw [List.pairwise_cons] at hsorted
      obtain ⟨hcle, hsrest⟩ := hsorted
      obtain ⟨m1, m2, m3, m4⟩ := mergeLoop_spec text rest c
        (hval2 c (List.mem_cons_self c rest))
        (fun e he => hval2 e (List.mem_cons_of_mem c he)) hcle hsrest
      refine ⟨m1, m2, pairwise_le_of_sep _ m1 m2, ?_⟩
      intro i
      rw [m4 i, ← covers_cons]
      exact covers_perm hperm i

/-- Values produced by the merge loop are nonempty and spans stay inside
the text, provided the inputs are. -/
theorem mergeLoop_bounds (text : Str) :
    ∀ (rest : List Entity) (cur : Entity),
      cur.start < cur.stop → cur.stop ≤ text.length → cur.value ≠ [] →
      (∀ e ∈ rest, e.start < e.stop) →
      (∀ e ∈ rest, e.stop ≤ text.length) →
      (∀ e ∈ rest, e.value ≠ []) →
      ∀ e ∈ mergeLoop text cur rest, e.value ≠ [] ∧ e.stop ≤ text.length := by
  intro rest
  induction rest with
  | nil =>
    intro cur h1 h2 h3 _ _ _ e he
    rcases List.mem_cons.mp he with rfl | he2
    · exact ⟨h3, h2⟩
    · exact absurd he2 (List.not_mem_nil e)
  | cons n rest ih =>
    intro cur h1 h2 h3 h4 h5 h6
    rw [mergeLoop]
    by_cases hc : n.start ≤ cur.stop
    · rw [if_pos hc]
      have hnstop : n.stop ≤ text.length := h5 n (List.mem_cons_self n rest)
      have hmax : max cur.stop n.stop ≤ text.length := by omega
      apply ih
      · show cur.start < max cur.stop n.stop
        omega
      · exact hmax
      · show pySlice text cur.start (max cur.stop n.stop) ≠ []
        unfold pySlice
        intro hnil
        have hlen := congrArg List.length hnil
        rw [List.length_drop, List.length_take] at hlen
        simp only [List.length_nil] at hlen
        omega
      · exact fun e he => h4 e (List.mem_cons_of_mem n he)
      · exact fun e he => h5 e (List.mem_cons_of_mem n he)
      · exact fun e he => h6 e (List.mem_cons_of_mem n he)
    · rw [if_neg hc]
      intro e he
      rcases List.mem_cons.mp he with rfl | he2
      · exact ⟨h3, h2⟩
      · exact ih n (h4 n (List.mem_cons_self n rest))
          (h5 n (List.mem_cons_self n rest)) (h6 n (List.mem_cons_self n rest))
          (fun e2 he2b => h4 e2 (List.mem_cons_of_mem n he2b))
          (fun e2 he2b => h5 e2 (List.mem_cons_of_mem n he2b))
          (fun e2 he2b => h6 e2 (List.mem_cons_of_mem n he2b)) e he2

/-- C7 (confirmed): for every list of valid entities (`end > start`,
`start ≥ 0`), possibly overlapping, `_merge_entities` returns entities whose
spans are pairwise non-overlapping and strictly separated, listed in
non-decreasing start order, and whose union of `[start, end)` ranges equals
the union of the input spans. -/
theorem merge_entities_spec :
    ∀ (text : Str) (es : List Entity),
      (∀ e ∈ es, e.start < e.stop) →
      List.Pairwise (fun a b => a.stop < b.start) (mergeEntities es text)
      ∧ (∀ e ∈ mergeEntities es text, e.start < e.stop)
      ∧ List.Pairwise (fun a b => a.start ≤ b.start) (mergeEntities es text)
      ∧ (∀ i, covers (mergeEntities es text) i ↔ covers es i) :=
  mergeEntities_props

/-- First overlapping entity of the C7 witness. -/
def mwEnt1 : Entity := { etype := "A".data, value := "abc".data, start := 0, stop := 3 }

/-- Second overlapping entity of the C7 witness. -/
def mwEnt2 : Entity := { etype := "B".data, value := "cde".data, start := 2, stop := 5 }

/-- Witness for `merge_entities_spec`: two overlapping concrete entities
satisfy the validity hypothesis, and merging preserves the span union. -/
theorem merge_entities_spec_witness :
    (∀ e ∈ [mwEnt1, mwEnt2], e.start < e.stop)
    ∧ (∀ i, covers (mergeEntities [mwEnt1, mwEnt2] "abcdef".data) i ↔
        covers [mwEnt1, mwEnt2] i) :=
  ⟨by decide, (merge_entities_spec "abcdef".data [mwEnt1, mwEnt2] (by decide)).2.2.2⟩

/-- `RedactionStrategy` enum of `app/compliance/redaction.py`. -/
inductive RedactionStrategy where
  | FULL_MASK
  | TOKEN_REPLACEMENT
  | PATTERN_BASED
  | HASH_REPLACEMENT
  | PARTIAL_MASK
deriving DecidableEq

/-- Replacement token `[{TYPE}]` of the token strategy. -/
def tokenOf (entityType : Str) : Str := '[' :: entityType ++ [']']

/-- Environment for `_generate_redacted_value`'s hash strategy: the 8-hex
digest (HMAC-SHA256 under `PII_REDACTION_KEY` when the key is configured,
else plain SHA-256, lines 236-247) is abstracted as one opaque digest
function fixed by the environment. -/
structure PiiEnv where
  digest : Str → Str

/-- `RedactionService._generate_redacted_value`
(`app/compliance/redaction.py` lines 216-249); the final `return "****"`
catches the `PATTERN_BASED` strategy. -/
def generateRedactedValue (env : PiiEnv) (original entityType : Str)
    (strategy : RedactionStrategy) : Str :=
  match strategy with
  | .FULL_MASK => "****".data
  | .TOKEN_REPLACEMENT => tokenOf entityType
  | .PARTIAL_MASK =>
    if original.length ≤ 4 then List.replicate original.length '*'
    else original.take 1 ++ List.replicate (original.length - 2) '*'
      ++ original.drop (original.length - 1)
  | .HASH_REPLACEMENT => '[' :: entityType ++ ':' :: env.digest original ++ [']']
  | .PATTERN_BASED => "****".data

/-- Redaction record dictionary appended for each redacted entity. -/
structure RedactionRecord where
  original : Str
  redacted : Str
  rtype : Str
  strategy : RedactionStrategy
  start : Nat
  stop : Nat
deriving DecidableEq

/-- The service's in-memory `redaction_map`, with Python dict semantics
(insertion order, in-place overwrite of an existing key). -/
abbrev RedactionMap := List (Str × Str)

/-- Python dict lookup `redaction_map.get(k)`. -/
def dictGet? : RedactionMap → Str → Option Str
  | [], _ => none
  | p :: m, k => if p.1 == k then some p.2 else dictGet? m k

/-- Python dict assignment `redaction_map[k] = v`: overwrite in place when
the key exists, append otherwise. -/
def dictSet : RedactionMap → Str → Str → RedactionMap
  | [], k, v => [(k, v)]
  | p :: m, k, v => if p.1 == k then (k, v) :: m else p :: dictSet m k v

/-- Mutable state of `RedactionService.redact_text`: the text being
rewritten, the accumulated redaction records, and `self.redaction_map`. -/
structure RedactState where
  text : Str
  records : List RedactionRecord
  map : RedactionMap

/-- Loop body of `redact_text` (`app/compliance/redaction.py` lines
126-151): skip invalid or empty-valued entities, splice the replacement into
the text, store the mapping when `keep_mapping`, and append a record. -/
def redactStep (env : PiiEnv) (strategy : RedactionStrategy)
    (keep_mapping : Bool) (st : RedactState) (e : Entity) : RedactState :=
  if e.value = [] ∨ e.stop ≤ e.start then st
  else
    let redacted := generateRedactedValue env e.value e.etype strategy
    { text := st.text.take e.start ++ redacted ++ st.text.drop e.stop,
      records := st.records ++
        [{ original := e.value, redacted := redacted, rtype := e.etype,
           strategy := strategy, start := e.start, stop := e.stop }],
      map := if keep_mapping then dictSet st.map e.value redacted else st.map }

/-- `RedactionService.redact_text` (lines 92-153): merge overlapping
entities, process them in descending start order, and fold the loop body
over the service state.  `map0` is the `redaction_map` content accumulated
by earlier calls; the service defaults are `strategy = TOKEN_REPLACEMENT`
and `keep_mapping = True`. -/
def redact_text (env : PiiEnv) (map0 : RedactionMap) (text : Str)
    (entities : List Entity) (strategy : RedactionStrategy)
    (keep_mapping : Bool) : RedactState :=
  (sortByStartDesc (mergeEntities entities text)).foldl
    (redactStep env strategy keep_mapping)
    { text := text, records := [], map := map0 }

/-- `RedactionService.get_mapping`: returns (a copy of) the map. -/
def get_mapping (m : RedactionMap) : RedactionMap := m

/-- `RedactionService.clear_mapping`: empties the map. -/
def clear_mapping (_ : RedactionMap) : RedactionMap := []

/-- Replacement of the last redaction record carrying original value `o`. -/
def lastReplacement (records : List RedactionRecord) (o : Str) : Option Str :=
  ((records.filter (fun r => r.original == o)).getLast?).map (fun r => r.redacted)

theorem dictGet?_set_self : ∀ (m : RedactionMap) (k v : Str),
    dictGet? (dictSet m k v) k = some v := by
  intro m k v
  induction m with
  | nil => simp [dictSet, dictGet?]
  | cons p m ih =>
    rw [dictSet]
    by_cases h : p.1 == k
    · rw [if_pos h]
      simp [dictGet?]
    · rw [if_neg h, dictGet?, if_neg h]
      exact ih

theorem dictGet?_set_other : ∀ (m : RedactionMap) (k v o : Str), o ≠ k →
    dictGet? (dictSet m k v) o = dictGet? m o := by
  intro m k v o ho
  induction m with
  | nil =>
    simp only [dictSet, dictGet?]
    rw [if_neg]
    intro h
    exact ho (beq_iff_eq.mp h).symm
  | cons p m ih =>
    rw [dictSet]
    by_cases h : p.1 == k
    · rw [if_pos h, dictGet?, dictGet?]
      have hpk : p.1 = k := beq_iff_eq.mp h
      have h1 : (k == o) = false := by
        rw [beq_eq_false_iff_ne]
        intro hk
        exact ho hk.symm
      have h2 : (p.1 == o) = false := by
        rw [beq_eq_false_iff_ne, hpk]
        intro hk
        exact ho hk.symm
      rw [h1, h2]
      simp
    · rw [if_neg h, dictGet?, dictGet?, ih]

theorem lastReplacement_append_one (records : List RedactionRecord)
    (rec : RedactionRecord) (o : Str) :
    lastReplacement (records ++ [rec]) o =
      if rec.original == o then some rec.redacted else lastReplacement records o := by
  unfold lastReplacement
  rw [List.filter_append]
  by_cases h : rec.original == o
  · rw [if_pos h]
    simp [List.filter_cons, h, List.getLast?_concat]
  · rw [if_neg h]
    simp [List.filter_cons, h]

/-- Relation between the state's map and its records, relative to the map
contents `base` present before the call: each original maps to the
replacement of the last record that redacted it, and untouched keys keep
their `base` entry. -/
def MapRecordsInv (base : RedactionMap) (st : RedactState) : Prop :=
  ∀ o, dictGet? st.map o =
    match lastReplacement st.records o with
    | some v => some v
    | none => dictGet? base o

theorem redactStep_inv (env : PiiEnv) (strategy : RedactionStrategy)
    (base : RedactionMap) (st : RedactState) (e : Entity)
    (h : MapRecordsInv base st) :
    MapRecordsInv base (redactStep env strategy true st e) := by
  unfold redactStep
  by_cases hskip : e.value = [] ∨ e.stop ≤ e.start
  · rw [if_pos hskip]
    exact h
  · rw [if_neg hskip]
    intro o
    simp only [if_true]
    rw [lastReplacement_append_one]
    by_cases ho : (e.value == o) = true
    · have ho2 : e.value = o := beq_iff_eq.mp ho
      subst ho2
      rw [if_pos ho, dictGet?_set_self]
    · have honeq : o ≠ e.value := by
        intro hk
        exact ho (beq_iff_eq.mpr hk.symm)
      rw [if_neg ho, dictGet?_set_other st.map e.value _ o honeq]
      exact h o

theorem redact_foldl_inv (env : PiiEnv) (strategy : RedactionStrategy)
    (base : RedactionMap) :
    ∀ (ents : List Entity) (st : RedactState), MapRecordsInv base st →
      MapRecordsInv base (ents.foldl (redactStep env strategy true) st) := by
  intro ents
  induction ents with
  | nil => exact fun st h => h
  | cons e ents ih =>
    intro st h
    rw [List.foldl_cons]
    exact ih _ (redactStep_inv env strategy base st e h)

/-- Text of the C10 scenario: the same string appears at two spans. -/
def c10Text : Str := "ab ab".data

/-- First entity of the C10 scenario (value `"ab"`, type `T1`). -/
def c10e1 : Entity := { etype := "T1".data, value := "ab".data, start := 0, stop := 2 }

/-- Second entity of the C10 scenario (same value `"ab"`, type `T2`). -/
def c10e2 : Entity := { etype := "T2".data, value := "ab".data, start := 3, stop := 5 }

/-- Environment whose digest is never consulted by the token strategy. -/
def env0 : PiiEnv := { digest := fun _ => [] }

/-- C10 counterexample: with two records sharing the original value `"ab"`
but with different types, the map holds only the replacement written last
(`"[T1]"`, from the lowest-start entity processed last in descending
order), so the record redacted to `"[T2]"` does not find its own
replacement in the map — the claim that each record's original maps to its
replacement fails. -/
theorem redaction_map_overwrite_counterexample :
    ((redact_text env0 [] c10Text [c10e1, c10e2] .TOKEN_REPLACEMENT true).records.map
        (fun r => (r.original, r.redacted)))
      = [("ab".data, "[T2]".data), ("ab".data, "[T1]".data)]
    ∧ dictGet? (redact_text env0 [] c10Text [c10e1, c10e2] .TOKEN_REPLACEMENT true).map
        "ab".data = some "[T1]".data
    ∧ ¬ (∀ r ∈ (redact_text env0 [] c10Text [c10e1, c10e2] .TOKEN_REPLACEMENT true).records,
          dictGet? (redact_text env0 [] c10Text [c10e1, c10e2] .TOKEN_REPLACEMENT true).map
            r.original = some r.redacted) := by
  refine ⟨rfl, rfl, ?_⟩
  decide

/-- C10 (amended): every `redact_text` call with `keep_mapping` left at its
default stores each produced record's original value as a key of the
in-memory `redaction_map`; the key's value is the replacement of the *last*
record produced for that original (later-processed spans overwrite earlier
ones when the same value recurs with a different replacement); keys already
present before the call remain present (accumulation across calls);
`get_mapping` returns the map and `clear_mapping` empties it. -/
theorem redaction_map_amended :
    ∀ (env : PiiEnv) (map0 : RedactionMap) (text : Str) (entities : List Entity)
      (strategy : RedactionStrategy),
      (∀ r ∈ (redact_text env map0 text entities strategy true).records,
        (lastReplacement (redact_text env map0 text entities strategy true).records
            r.original).isSome = true
        ∧ dictGet? (redact_text env map0 text entities strategy true).map r.original
            = lastReplacement (redact_text env map0 text entities strategy true).records
                r.original)
      ∧ (∀ k v, dictGet? map0 k = some v →
          ∃ v2, dictGet? (redact_text env map0 text entities strategy true).map k = some v2)
      ∧ get_mapping (redact_text env map0 text entities strategy true).map
          = (redact_text env map0 text entities strategy true).map
      ∧ (∀ k, dictGet? (clear_mapping
            (redact_text env map0 text entities strategy true).map) k = none) := by
  intro env map0 text entities strategy
  have hinv : MapRecordsInv map0 (redact_text env map0 text entities strategy true) := by
    unfold redact_text
    apply redact_foldl_inv
    intro o
    simp [lastReplacement, dictGet?]
  refine ⟨?_, ?_, rfl, fun k => rfl⟩
  · intro r hr
    have hsome : (lastReplacement
        (redact_text env map0 text entities strategy true).records r.original).isSome = true := by
      unfold lastReplacement
      rw [Option.isSome_map']
      rw [List.getLast?_isSome]
      intro hnil
      have hmem : r ∈ List.filter (fun r2 => r2.original == r.original)
          (redact_text env map0 text entities strategy true).records :=
        List.mem_filter.mpr ⟨hr, beq_self_eq_true r.original⟩
      rw [hnil] at hmem
      exact List.not_mem_nil r hmem
    refine ⟨hsome, ?_⟩
    have h := hinv r.original
    rcases hlast : lastReplacement
        (redact_text env map0 text entities strategy true).records r.original with _ | v
    · rw [hlast] at hsome
      simp at hsome
    · rw [hlast] at h
      exact h
  · intro k v hk
    have h := hinv k
    rcases hlast : lastReplacement
        (redact_text env map0 text entities strategy true).records k with _ | v2
    · rw [hlast] at h
      rw [h, hk]
      exact ⟨v, rfl⟩
    · rw [hlast] at h
      exact ⟨v2, h⟩

/-- Witness for `redaction_map_amended`: in the C10 scenario the map entry
for `"ab"` is the last-processed replacement. -/
theorem redaction_map_amended_witness :
    dictGet? (redact_text env0 [] c10Text [c10e1, c10e2] .TOKEN_REPLACEMENT true).map
        ({ original := "ab".data, redacted := "[T2]".data, rtype := "T2".data,
           strategy := RedactionStrategy.TOKEN_REPLACEMENT, start := 3, stop := 5 } :
          RedactionRecord).original
      = lastReplacement
          (redact_text env0 [] c10Text [c10e1, c10e2] .TOKEN_REPLACEMENT true).records
          ({ original := "ab".data, redacted := "[T2]".data, rtype := "T2".data,
             strategy := RedactionStrategy.TOKEN_REPLACEMENT, start := 3, stop := 5 } :
            RedactionRecord).original :=
  ((redaction_map_amended env0 [] c10Text [c10e1, c10e2] .TOKEN_REPLACEMENT).1
    _ (by decide)).2

/-! ## Occurrence combinatorics for the token-redaction claim -/

/-- Occurrence of `v` in `s` at position `j`. -/
def occursAt (v s : Str) (j : Nat) : Prop :=
  j + v.length ≤ s.length ∧ (s.drop j).take v.length = v

theorem isSub_iff_occursAt (v s : Str) : IsSub v s ↔ ∃ j, occursAt v s j := by
  constructor
  · rintro ⟨l, r, rfl⟩
    refine ⟨l.length, ?_, ?_⟩
    · simp [List.length_append]
    · rw [List.append_assoc, List.drop_left, List.take_left]
  · rintro ⟨j, hlen, heq⟩
    refine ⟨s.take j, s.drop (j + v.length), ?_⟩
    have h2 : s.drop j = v ++ s.drop (j + v.length) := by
      conv_lhs => rw [← List.take_append_drop v.length (s.drop j)]
      rw [heq, List.drop_drop]
    rw [List.append_assoc, ← h2, List.take_append_drop]

theorem isSub_append (v a b : Str) (h : IsSub v (a ++ b)) :
    IsSub v a ∨ IsSub v b ∨
    ∃ v₁ v₂, v = v₁ ++ v₂ ∧ v₁ ≠ [] ∧ v₂ ≠ [] ∧ IsTail v₁ a ∧ IsHead v₂ b := by
  rw [isSub_iff_occursAt] at h
  obtain ⟨j, hlen, heq⟩ := h
  rw [List.length_append] at hlen
  by_cases h1 : j + v.length ≤ a.length
  · left
    rw [isSub_iff_occursAt]
    refine ⟨j, ⟨h1, ?_⟩⟩
    rw [List.drop_append_eq_append_drop, List.take_append_eq_append_take] at heq
    have hl : v.length - (a.drop j).length = 0 := by
      rw [List.length_drop]
      omega
    rw [hl, List.take_zero, List.append_nil] at heq
    exact heq
  · by_cases h2 : a.length ≤ j
    · right
      left
      rw [isSub_iff_occursAt]
      refine ⟨j - a.length, ⟨by omega, ?_⟩⟩
      rw [List.drop_append_eq_append_drop, List.drop_eq_nil_of_le h2,
        List.nil_append] at heq
      exact heq
    · right
      right
      push_neg at h1 h2
      have hdj : (a.drop j).length = a.length - j := List.length_drop j a
      have heq2 := heq
      rw [List.drop_append_eq_append_drop] at heq2
      have hj0 : j - a.length = 0 := by omega
      rw [hj0, List.drop_zero, List.take_append_eq_append_take,
        List.take_of_length_le (by omega)] at heq2
      refine ⟨a.drop j, b.take (v.length - (a.drop j).length), heq2.symm, ?_, ?_, ?_, ?_⟩
      · apply List.ne_nil_of_length_pos
        omega
      · apply List.ne_nil_of_length_pos
        rw [List.length_take]
        omega
      · exact ⟨a.take j, (List.take_append_drop j a).symm⟩
      · exact ⟨b.drop (v.length - (a.drop j).length),
          (List.take_append_drop _ b).symm⟩

theorem isHead_cons_mem {v₂ : Str} {c : Char} {t : Str}
    (h : IsHead v₂ (c :: t)) (hne : v₂ ≠ []) : c ∈ v₂ := by
  obtain ⟨r, hr⟩ := h
  cases v₂ with
  | nil => exact absurd rfl hne
  | cons d v₂' =>
    rw [List.cons_append] at hr
    injection hr with h1 _
    rw [h1]
    exact List.mem_cons_self d v₂'

theorem isTail_concat_mem {v₁ : Str} {l : Str} {c : Char}
    (h : IsTail v₁ (l ++ [c])) (hne : v₁ ≠ []) : c ∈ v₁ := by
  obtain ⟨l2, hl⟩ := h
  have h1 : (l ++ [c]).getLast? = some c := List.getLast?_concat l
  rw [hl, List.getLast?_append_of_ne_nil l2 hne] at h1
  exact List.mem_of_mem_getLast? (by rw [h1]; exact Option.mem_some_iff.mpr rfl)

theorem occursAt_in_drop {v s : Str} {p j : Nat} (hv : v ≠ [])
    (h : occursAt v (s.drop p) j) : occursAt v s (p + j) := by
  obtain ⟨hlen, heq⟩ := h
  rw [List.length_drop] at hlen
  have hvpos : 0 < v.length := List.length_pos.mpr hv
  refine ⟨by omega, ?_⟩
  rw [List.drop_drop] at heq
  exact heq

theorem occursAt_in_take_drop {v s : Str} {p n j : Nat} (hv : v ≠ [])
    (h : occursAt v ((s.drop p).take n) j) :
    occursAt v s (p + j) ∧ p + j + v.length ≤ p + n := by
  obtain ⟨hlen, heq⟩ := h
  rw [List.length_take, List.length_drop] at hlen
  have hvpos : 0 < v.length := List.length_pos.mpr hv
  refine ⟨⟨by omega, ?_⟩, by omega⟩
  rw [List.drop_take, List.take_take, List.drop_drop] at heq
  rw [Nat.min_eq_left (by omega)] at heq
  exact heq

/-- Strictly separated, in-bounds spans all starting at or after `pos`. -/
def AscSep (text : Str) : Nat → List Entity → Prop
  | _, [] => True
  | pos, m :: rest =>
    pos ≤ m.start ∧ m.start < m.stop ∧ m.stop ≤ text.length ∧ AscSep text m.stop rest

theorem ascSep_start_le (text : Str) :
    ∀ (l : List Entity) (q : Nat), AscSep text q l → ∀ e ∈ l, q ≤ e.start := by
  intro l
  induction l with
  | nil =>
    intro q _ e he
    exact absurd he (List.not_mem_nil e)
  | cons m rest ih =>
    intro q hasc e he
    obtain ⟨h1, h2, h3, h4⟩ := hasc
    rcases List.mem_cons.mp he with rfl | he2
    · exact h1
    · have := ih m.stop h4 e he2
      omega

theorem ascSep_of (text : Str) :
    ∀ (l : List Entity) (pos : Nat),
      List.Pairwise (fun a b => a.stop < b.start) l →
      (∀ e ∈ l, e.start < e.stop ∧ e.stop ≤ text.length) →
      (∀ e ∈ l, pos ≤ e.start) → AscSep text pos l := by
  intro l
  induction l with
  | nil =>
    intro pos _ _ _
    trivial
  | cons m rest ih =>
    intro pos hp hv hpos
    rw [List.pairwise_cons] at hp
    refine ⟨hpos m (List.mem_cons_self m rest), (hv m (List.mem_cons_self m rest)).1,
      (hv m (List.mem_cons_self m rest)).2, ?_⟩
    apply ih m.stop hp.2 (fun e he => hv e (List.mem_cons_of_mem m he))
    intro e he
    exact le_of_lt (hp.1 e he)

/-- Rendered result of token redaction over strictly separated spans:
untouched text segments interleaved with `[TYPE]` tokens. -/
def renderFrom (text : Str) : Nat → List Entity → Str
  | pos, [] => text.drop pos
  | pos, m :: rest =>
    (text.drop pos).take (m.start - pos) ++ tokenOf m.etype
      ++ renderFrom text m.stop rest

theorem pairwise_lt_of_sep :
    ∀ l : List Entity, List.Pairwise (fun a b => a.stop < b.start) l →
      (∀ e ∈ l, e.start < e.stop) →
      List.Pairwise (fun a b => a.start < b.start) l := by
  intro l
  induction l with
  | nil =>
    intro _ _
    exact List.Pairwise.nil
  | cons a l ih =>
    intro hp hv
    rw [List.pairwise_cons] at hp ⊢
    refine ⟨?_, ih hp.2 (fun e he => hv e (List.mem_cons_of_mem a he))⟩
    intro b hb
    have h1 := hp.1 b hb
    have h2 := hv a (List.mem_cons_self a l)
    omega

theorem insertByStartDesc_append (a : Entity) :
    ∀ l : List Entity, (∀ b ∈ l, ¬ b.start ≤ a.start) →
      insertByStartDesc a l = l ++ [a] := by
  intro l
  induction l with
  | nil =>
    intro _
    rfl
  | cons b l ih =>
    intro h
    rw [insertByStartDesc, if_neg (h b (List.mem_cons_self b l)),
      ih (fun c hc => h c (List.mem_cons_of_mem b hc))]
    rfl

theorem sortByStartDesc_of_strict :
    ∀ l : List Entity, List.Pairwise (fun a b => a.start < b.start) l →
      sortByStartDesc l = l.reverse := by
  intro l
  induction l with
  | nil =>
    intro _
    rfl
  | cons a l ih =>
    intro hp
    rw [List.pairwise_cons] at hp
    rw [sortByStartDesc, ih hp.2, List.reverse_cons]
    apply insertByStartDesc_append
    intro b hb
    have := hp.1 b (List.mem_reverse.mp hb)
    omega

/-- Text-only update of the `redact_text` loop body. -/
def textStep (env : PiiEnv) (strategy : RedactionStrategy) (t : Str) (e : Entity) : Str :=
  if e.value = [] ∨ e.stop ≤ e.start then t
  else t.take e.start ++ generateRedactedValue env e.value e.etype strategy ++ t.drop e.stop

theorem redactStep_text (env : PiiEnv) (strategy : RedactionStrategy)
    (keep : Bool) (st : RedactState) (e : Entity) :
    (redactStep env strategy keep st e).text = textStep env strategy st.text e := by
  unfold redactStep textStep
  by_cases h : e.value = [] ∨ e.stop ≤ e.start
  · rw [if_pos h, if_pos h]
  · rw [if_neg h, if_neg h]

theorem redact_foldl_text (env : PiiEnv) (strategy : RedactionStrategy) (keep : Bool) :
    ∀ (ents : List Entity) (st : RedactState),
      (ents.foldl (redactStep env strategy keep) st).text
        = ents.foldl (textStep env strategy) st.text := by
  intro ents
  induction ents with
  | nil =>
    intro st
    rfl
  | cons e ents ih =>
    intro st
    rw [List.foldl_cons, List.foldl_cons, ih, redactStep_text]

/-- Descending-order splice expressed as a right fold over the ascending
merged list. -/
def foldrSplice (env : PiiEnv) (strategy : RedactionStrategy) (text : Str)
    (ms : List Entity) : Str :=
  ms.foldr (fun e acc => textStep env strategy acc e) text

theorem foldrSplice_take_drop (env : PiiEnv) (text : Str) :
    ∀ (ms : List Entity) (q : Nat),
      AscSep text q ms → (∀ e ∈ ms, e.value ≠ []) →
      (foldrSplice env .TOKEN_REPLACEMENT text ms).take q = text.take q
      ∧ (foldrSplice env .TOKEN_REPLACEMENT text ms).drop q = renderFrom text q ms := by
  intro ms
  induction ms with
  | nil =>
    intro q _ _
    exact ⟨rfl, rfl⟩
  | cons m rest ih =>
    intro q hasc hval
    obtain ⟨hq, hss, hsl, hrest⟩ := hasc
    have hmv : m.value ≠ [] := hval m (List.mem_cons_self m rest)
    have hcond : ¬ (m.value = [] ∨ m.stop ≤ m.start) := by
      push_neg
      exact ⟨hmv, by omega⟩
    obtain ⟨iht, ihd⟩ := ih m.stop hrest (fun e he => hval e (List.mem_cons_of_mem m he))
    have hRtake : (foldrSplice env .TOKEN_REPLACEMENT text rest).take m.start
        = text.take m.start := by
      have h1 : min m.start m.stop = m.start := Nat.min_eq_left (le_of_lt hss)
      calc (foldrSplice env .TOKEN_REPLACEMENT text rest).take m.start
          = ((foldrSplice env .TOKEN_REPLACEMENT text rest).take m.stop).take m.start := by
            rw [List.take_take, h1]
        _ = (text.take m.stop).take m.start := by rw [iht]
        _ = text.take m.start := by rw [List.take_take, h1]
    have hform : foldrSplice env .TOKEN_REPLACEMENT text (m :: rest)
        = text.take m.start ++ tokenOf m.etype ++ renderFrom text m.stop rest := by
      show textStep env .TOKEN_REPLACEMENT (foldrSplice env .TOKEN_REPLACEMENT text rest) m
        = text.take m.start ++ tokenOf m.etype ++ renderFrom text m.stop rest
      unfold textStep
      rw [if_neg hcond, hRtake, ihd]
      rfl
    have hlentake : (text.take m.start).length = m.start := by
      rw [List.length_take]
      omega
    constructor
    · rw [hform, List.append_assoc, List.take_append_eq_append_take]
      have hq0 : q - (text.take m.start).length = 0 := by omega
      rw [hq0, List.take_zero, List.append_nil, List.take_take,
        Nat.min_eq_left (by omega : q ≤ m.start)]
    · rw [hform, List.append_assoc, List.drop_append_eq_append_drop]
      have hq0 : q - (text.take m.start).length = 0 := by omega
      rw [hq0, List.drop_zero, List.drop_take]
      show (text.drop q).take (m.start - q) ++ (tokenOf m.etype ++ renderFrom text m.stop rest)
        = renderFrom text q (m :: rest)
      rw [renderFrom, List.append_assoc]

theorem mergeEntities_bounds (text : Str) (es : List Entity)
    (hval : ∀ e ∈ es, e.start < e.stop)
    (hbnd : ∀ e ∈ es, e.stop ≤ text.length ∧ e.value ≠ []) :
    ∀ e ∈ mergeEntities es text, e.value ≠ [] ∧ e.stop ≤ text.length := by
  by_cases hes : es = []
  · subst hes
    intro e he
    exact absurd he (by simp [mergeEntities])
  · have hfilter : es.filter (fun e => decide (e.start < e.stop)) = es :=
      List.filter_eq_self.mpr (fun a ha => decide_eq_true (hval a ha))
    have hme : mergeEntities es text =
        match sortByStart es with
        | [] => []
        | c :: rest => mergeLoop text c rest := by
      unfold mergeEntities
      rw [if_neg hes]
      simp only [hfilter]
      rw [if_neg hes]
    have hperm := sortByStart_perm es
    rw [hme]
    cases hs : sortByStart es with
    | nil =>
      intro e he
      exact absurd he (List.not_mem_nil e)
    | cons c rest =>
      rw [hs] at hperm
      have hv2 : ∀ e ∈ c :: rest, e.start < e.stop :=
        fun e he => hval e (hperm.subset he)
      have hb2 : ∀ e ∈ c :: rest, e.stop ≤ text.length ∧ e.value ≠ [] :=
        fun e he => hbnd e (hperm.subset he)
      exact mergeLoop_bounds text rest c
        (hv2 c (List.mem_cons_self c rest))
        (hb2 c (List.mem_cons_self c rest)).1
        (hb2 c (List.mem_cons_self c rest)).2
        (fun e he => hv2 e (List.mem_cons_of_mem c he))
        (fun e he => (hb2 e (List.mem_cons_of_mem c he)).1)
        (fun e he => (hb2 e (List.mem_cons_of_mem c he)).2)

theorem renderFrom_no_sub (text v : Str)
    (hv : v ≠ []) (hbl : '[' ∉ v) (hbr : ']' ∉ v) :
    ∀ (ms : List Entity) (pos : Nat),
      AscSep text pos ms →
      (∀ m ∈ ms, ¬ IsSub v (tokenOf m.etype)) →
      (∀ j, pos ≤ j → occursAt v text j →
        ∃ m ∈ ms, ¬ (j + v.length ≤ m.start ∨ m.stop ≤ j)) →
      ¬ IsSub v (renderFrom text pos ms) := by
  intro ms
  induction ms with
  | nil =>
    intro pos _ _ hocc hsub
    rw [renderFrom, isSub_iff_occursAt] at hsub
    obtain ⟨j, hj⟩ := hsub
    obtain ⟨m, hm, -⟩ := hocc (pos + j) (by omega) (occursAt_in_drop hv hj)
    exact absurd hm (List.not_mem_nil m)
  | cons m rest ih =>
    intro pos hasc htok hocc hsub
    obtain ⟨hpos, hss, hsl, hrest⟩ := hasc
    rw [renderFrom, List.append_assoc] at hsub
    rcases isSub_append v _ _ hsub with hg | hmid | ⟨v₁, v₂, hv12, hne1, hne2, ht1, hh2⟩
    · rw [isSub_iff_occursAt] at hg
      obtain ⟨j, hj⟩ := hg
      obtain ⟨hocc2, hbound⟩ := occursAt_in_take_drop hv hj
      have hbound2 : pos + j + v.length ≤ m.start := by omega
      obtain ⟨mm, hmm, hov⟩ := hocc (pos + j) (by omega) hocc2
      rcases List.mem_cons.mp hmm with rfl | hmm2
      · exact hov (Or.inl hbound2)
      · have := ascSep_start_le text rest m.stop hrest mm hmm2
        exact hov (Or.inl (by omega))
    · rcases isSub_append v _ _ hmid with htk | hR | ⟨v₁, v₂, hv12, hne1, hne2, ht1, hh2⟩
      · exact htok m (List.mem_cons_self m rest) htk
      · refine ih m.stop hrest (fun mm hmm => htok mm (List.mem_cons_of_mem m hmm)) ?_ hR
        intro j hj hoc
        obtain ⟨mm, hmm, hov⟩ := hocc j (by omega) hoc
        rcases List.mem_cons.mp hmm with rfl | hmm2
        · exact absurd (Or.inr (by omega)) hov
        · exact ⟨mm, hmm2, hov⟩
      · have htail : IsTail v₁ (('[' :: m.etype) ++ [']']) := ht1
        have hmem : ']' ∈ v₁ := isTail_concat_mem htail hne1
        apply hbr
        rw [hv12]
        exact List.mem_append.mpr (Or.inl hmem)
    · have hmem : '[' ∈ v₂ := isHead_cons_mem hh2 hne2
      apply hbl
      rw [hv12]
      exact List.mem_append.mpr (Or.inr hmem)

instance (v s : Str) (j : Nat) : Decidable (occursAt v s j) := by
  unfold occursAt
  infer_instance

theorem redact_text_token_renders (env : PiiEnv) (map0 : RedactionMap)
    (text : Str) (es : List Entity)
    (hval : ∀ e ∈ es, e.start < e.stop)
    (hbnd : ∀ e ∈ es, e.stop ≤ text.length ∧ e.value ≠ []) :
    (redact_text env map0 text es .TOKEN_REPLACEMENT true).text
      = renderFrom text 0 (mergeEntities es text) := by
  obtain ⟨m1, m2, -, -⟩ := mergeEntities_props text es hval
  have hb := mergeEntities_bounds text es hval hbnd
  have hstrict := pairwise_lt_of_sep _ m1 m2
  have hasc : AscSep text 0 (mergeEntities es text) :=
    ascSep_of text _ 0 m1 (fun e he => ⟨m2 e he, (hb e he).2⟩)
      (fun e _ => Nat.zero_le _)
  unfold redact_text
  rw [redact_foldl_text, sortByStartDesc_of_strict _ hstrict, List.foldl_reverse]
  have h2 := (foldrSplice_take_drop env text (mergeEntities es text) 0 hasc
    (fun e he => (hb e he).1)).2
  rw [List.drop_zero] at h2
  exact h2

/-- C2 (amended): token redaction of valid, in-bounds, non-overlapping
entities yields a text containing none of the input entity values, provided
additionally that no value contains a bracket character, no value occurs
inside a replacement token `[TYPE]` built from the merged entity types, and
every occurrence of each value in the original text overlaps some entity
span. -/
theorem redact_token_no_value_substring :
    ∀ (env : PiiEnv) (map0 : RedactionMap) (text : Str) (es : List Entity),
      (∀ e ∈ es, e.start < e.stop ∧ e.stop ≤ text.length ∧ e.value ≠ []) →
      List.Pairwise (fun a b => a.stop ≤ b.start ∨ b.stop ≤ a.start) es →
      (∀ e ∈ es, '[' ∉ e.value ∧ ']' ∉ e.value) →
      (∀ e ∈ es, ∀ m ∈ mergeEntities es text, ¬ IsSub e.value (tokenOf m.etype)) →
      (∀ e ∈ es, ∀ j, j < text.length → occursAt e.value text j →
        ∃ e2 ∈ es, ¬ (j + e.value.length ≤ e2.start ∨ e2.stop ≤ j)) →
      ∀ e ∈ es,
        ¬ IsSub e.value (redact_text env map0 text es .TOKEN_REPLACEMENT true).text := by
  intro env map0 text es hval hnov hbrk htok hocc e he hsub
  have hval1 : ∀ x ∈ es, x.start < x.stop := fun x hx => (hval x hx).1
  have hbnd : ∀ x ∈ es, x.stop ≤ text.length ∧ x.value ≠ [] :=
    fun x hx => ⟨(hval x hx).2.1, (hval x hx).2.2⟩
  rw [redact_text_token_renders env map0 text es hval1 hbnd] at hsub
  obtain ⟨m1, m2, -, m4⟩ := mergeEntities_props text es hval1
  have hb := mergeEntities_bounds text es hval1 hbnd
  have hasc : AscSep text 0 (mergeEntities es text) :=
    ascSep_of text _ 0 m1 (fun x hx => ⟨m2 x hx, (hb x hx).2⟩)
      (fun x _ => Nat.zero_le _)
  refine renderFrom_no_sub text e.value (hval e he).2.2 (hbrk e he).1 (hbrk e he).2
    (mergeEntities es text) 0 hasc (htok e he) ?_ hsub
  intro j _ hoc
  have hvpos : 0 < e.value.length := List.length_pos.mpr (hval e he).2.2
  have hjlen : j < text.length := by
    obtain ⟨hl, -⟩ := hoc
    omega
  obtain ⟨e2, he2, hov⟩ := hocc e he j hjlen hoc
  obtain ⟨hA, hB⟩ := not_or.mp hov
  have he2v := (hval e2 he2).1
  have hcov : covers es (max j e2.start) := ⟨e2, he2, by omega, by omega⟩
  obtain ⟨mm, hmm, hms, hme⟩ := (m4 (max j e2.start)).mpr hcov
  refine ⟨mm, hmm, ?_⟩
  rintro (hA2 | hB2)
  · omega
  · omega

/-- Text of the C2 counterexample: the entity value also occurs outside the
entity's span. -/
def c2Text : Str := ['a', 'a']

/-- Single valid entity of the C2 counterexample covering only the first
occurrence of `"a"`. -/
def c2Entity : Entity := { etype := "T".data, value := ['a'], start := 0, stop := 1 }

/-- C2 counterexample: with text `"aa"` and one valid entity over the first
`"a"`, `redact_text` with the token strategy yields `"[T]a"`, which still
contains the entity's original value `"a"` as a substring — the claim as
stated is false. -/
theorem redact_token_value_survives :
    (∀ e ∈ [c2Entity], e.start < e.stop ∧ e.stop ≤ c2Text.length ∧ e.value ≠ [])
    ∧ List.Pairwise (fun a b => a.stop ≤ b.start ∨ b.stop ≤ a.start) [c2Entity]
    ∧ (redact_text env0 [] c2Text [c2Entity] .TOKEN_REPLACEMENT true).text = "[T]a".data
    ∧ IsSub c2Entity.value
        (redact_text env0 [] c2Text [c2Entity] .TOKEN_REPLACEMENT true).text := by
  refine ⟨by decide, List.pairwise_singleton _ _, rfl, by decide⟩

/-- Text of the C2 witness. -/
def c2wText : Str := "call 9876 now".data

/-- Entity of the C2 witness: its value occurs only at its own span. -/
def c2wEntity : Entity := { etype := "NUM".data, value := "9876".data, start := 5, stop := 9 }

/-- Witness for `redact_token_no_value_substring` at a concrete input whose
hypotheses all hold. -/
theorem redact_token_no_value_substring_witness :
    ¬ IsSub c2wEntity.value
        (redact_text env0 [] c2wText [c2wEntity] .TOKEN_REPLACEMENT true).text :=
  redact_token_no_value_substring env0 [] c2wText [c2wEntity]
    (by decide) (List.pairwise_singleton _ _) (by decide) (by decide) (by decide)
    c2wEntity (List.mem_singleton.mpr rfl)
